import Mathlib

/-!
Verification of the story/speech pipeline server (`server.py`).

The development shallowly embeds the pure decision logic of the source:

* `extract_plain_text`  — the markdown-to-plain-text extractor (lines 427-448);
* `process_markdown_with_images` — the block renderer (lines 791-903);
* the `generate_story` cache phase, poll loop and timeout scan (lines 96-247);
* `generate_speech_baidu` — token gate, long-text task creation/polling,
  short-text chunked fallback (lines 506-770);
* the `generate_audio` endpoint retry logic (lines 316-400).

Strings are modelled as `List Char` (Python `str` values); external effects
(HTTP responses, the filesystem, process launch) are modelled as explicit
parameters describing the observations the code makes of them.  Recursions
that are not structural are written with an explicit fuel argument equal to
the input length (each recursive call consumes at least one character), so
every definition evaluates by kernel reduction.
-/

namespace Server

/-- Python whitespace for `str.strip` and the regex class `\s`
(the characters space, tab, newline, carriage return, vertical tab, form feed). -/
def py_ws (c : Char) : Bool :=
  c = ' ' || c = '\t' || c = '\n' || c = '\r' || c = '\x0b' || c = '\x0c'

/-- Remove trailing Python whitespace (the tail half of `str.strip`). -/
def drop_trail : List Char → List Char
  | [] => []
  | c :: t =>
    match drop_trail t with
    | [] => if py_ws c then [] else [c]
    | r => c :: r

/-- Python `str.strip()`: drop leading and trailing whitespace. -/
def py_strip (l : List Char) : List Char :=
  drop_trail (l.dropWhile py_ws)

/-- Scan `cs` for the first occurrence of the delimiter `d`, refusing to cross
a newline (the regex `(.*?)` with `.` not matching a newline, followed by the
literal delimiter).  Returns the text before the delimiter and the remainder
after it.  A longer lazy expansion succeeds only if this shortest one does
(all candidate delimiter positions lie on the current line), so taking the
first occurrence is faithful to the backtracking regex engine. -/
def take_to_nonl (d : List Char) : List Char → Option (List Char × List Char)
  | [] => if d.isPrefixOf [] then some ([], []) else none
  | c :: rest =>
    if d.isPrefixOf (c :: rest) then some ([], (c :: rest).drop d.length)
    else if c = '\n' then none
    else
      match take_to_nonl d rest with
      | some (a, r) => some (c :: a, r)
      | none => none

/-- Scan `cs` for the first occurrence of the delimiter `d`, newlines allowed
(the regex `(.*?)` under `re.DOTALL`, followed by the literal delimiter). -/
def take_to_all (d : List Char) : List Char → Option (List Char × List Char)
  | [] => if d.isPrefixOf [] then some ([], []) else none
  | c :: rest =>
    if d.isPrefixOf (c :: rest) then some ([], (c :: rest).drop d.length)
    else
      match take_to_all d rest with
      | some (a, r) => some (c :: a, r)
      | none => none

/-! ## The plain-text extractor (`extract_plain_text`, server.py lines 427-448)

Each regex substitution of the source is one scanning function.  The scan
tries a match at the current position; on success it emits the replacement
and resumes after the matched span (Python `re.sub` never rescans the
replacement), on failure it emits one character and advances. -/

/-- One step of `re.sub(r'#+\s+', '', text)`: a maximal run of `#` followed by
at least one whitespace character is removed together with the maximal
whitespace run after it (both quantifiers are greedy, and shortening the `#`
run cannot create a match, since the next character is another `#`). -/
def sub_hash_ws_fuel : Nat → List Char → List Char
  | 0, l => l
  | _ + 1, [] => []
  | fuel + 1, c :: cs =>
    if c = '#' then
      if ((cs.dropWhile (fun x => x = '#')).head?).elim false py_ws then
        sub_hash_ws_fuel fuel ((cs.dropWhile (fun x => x = '#')).dropWhile py_ws)
      else '#' :: sub_hash_ws_fuel fuel cs
    else c :: sub_hash_ws_fuel fuel cs

def sub_hash_ws (l : List Char) : List Char :=
  sub_hash_ws_fuel l.length l

/-- `re.sub(r'!\[.*?\]\(.*?\)', '', text)`: remove each image reference. -/
def sub_image_fuel : Nat → List Char → List Char
  | 0, l => l
  | _ + 1, [] => []
  | fuel + 1, c :: cs =>
    if c = '!' ∧ cs.head? = some '[' then
      (match take_to_nonl [']', '('] cs.tail with
       | some (_, r1) =>
         match take_to_nonl [')'] r1 with
         | some (_, r2) => some r2
         | none => none
       | none => none).elim ('!' :: sub_image_fuel fuel cs)
        (fun r2 => sub_image_fuel fuel r2)
    else c :: sub_image_fuel fuel cs

def sub_image (l : List Char) : List Char :=
  sub_image_fuel l.length l

/-- `re.sub(r'\[(.*?)\]\(.*?\)', r'\1', text)`: replace links by their label. -/
def sub_link_fuel : Nat → List Char → List Char
  | 0, l => l
  | _ + 1, [] => []
  | fuel + 1, c :: cs =>
    if c = '[' then
      (match take_to_nonl [']', '('] cs with
       | some (label, r1) =>
         match take_to_nonl [')'] r1 with
         | some (_, r2) => some (label, r2)
         | none => none
       | none => none).elim ('[' :: sub_link_fuel fuel cs)
        (fun p => p.1 ++ sub_link_fuel fuel p.2)
    else c :: sub_link_fuel fuel cs

def sub_link (l : List Char) : List Char :=
  sub_link_fuel l.length l

/-- `re.sub(r'\*\*(.*?)\*\*', r'\1', text)`: strip bold markers. -/
def sub_bold_fuel : Nat → List Char → List Char
  | 0, l => l
  | _ + 1, [] => []
  | fuel + 1, c :: cs =>
    if c = '*' ∧ cs.head? = some '*' then
      (take_to_nonl ['*', '*'] cs.tail).elim ('*' :: sub_bold_fuel fuel cs)
        (fun p => p.1 ++ sub_bold_fuel fuel p.2)
    else c :: sub_bold_fuel fuel cs

def sub_bold (l : List Char) : List Char :=
  sub_bold_fuel l.length l

/-- `re.sub(r'\*(.*?)\*', r'\1', text)`: strip italic markers. -/
def sub_italic_fuel : Nat → List Char → List Char
  | 0, l => l
  | _ + 1, [] => []
  | fuel + 1, c :: cs =>
    if c = '*' then
      (take_to_nonl ['*'] cs).elim ('*' :: sub_italic_fuel fuel cs)
        (fun p => p.1 ++ sub_italic_fuel fuel p.2)
    else c :: sub_italic_fuel fuel cs

def sub_italic (l : List Char) : List Char :=
  sub_italic_fuel l.length l

/-- `re.sub(r'```.*?```', '', text, flags=re.DOTALL)`: remove fenced code. -/
def sub_code_fuel : Nat → List Char → List Char
  | 0, l => l
  | _ + 1, [] => []
  | fuel + 1, c :: cs =>
    if c = '`' ∧ cs.head? = some '`' ∧ cs.tail.head? = some '`' then
      (take_to_all ['`', '`', '`'] cs.tail.tail).elim
        ('`' :: sub_code_fuel fuel cs)
        (fun p => sub_code_fuel fuel p.2)
    else c :: sub_code_fuel fuel cs

def sub_code (l : List Char) : List Char :=
  sub_code_fuel l.length l

/-- `re.sub(r'---', '', text)`: delete each horizontal-rule token. -/
def sub_hr_fuel : Nat → List Char → List Char
  | 0, l => l
  | _ + 1, [] => []
  | fuel + 1, c :: cs =>
    if c = '-' ∧ cs.head? = some '-' ∧ cs.tail.head? = some '-' then
      sub_hr_fuel fuel cs.tail.tail
    else c :: sub_hr_fuel fuel cs

def sub_hr (l : List Char) : List Char :=
  sub_hr_fuel l.length l

/-- `text.replace('- ', '')`: delete leading list bullets (and, as in the
source, every other occurrence of the two-character string). -/
def repl_dash_fuel : Nat → List Char → List Char
  | 0, l => l
  | _ + 1, [] => []
  | fuel + 1, c :: cs =>
    if c = '-' ∧ cs.head? = some ' ' then repl_dash_fuel fuel cs.tail
    else c :: repl_dash_fuel fuel cs

def repl_dash (l : List Char) : List Char :=
  repl_dash_fuel l.length l

/-- Index of the last newline of a character list, if any. -/
def last_nl_idx : List Char → Option Nat
  | [] => none
  | c :: t =>
    match last_nl_idx t with
    | some j => some (j + 1)
    | none => if c = '\n' then some 0 else none

/-- Locate the greedy span of `\n\s*\n` starting at a newline already
consumed: `cs` is the text after that first newline.  The greedy `\s*`
extends through the maximal whitespace run and backtracks to the last
newline inside it; the result is the remainder after that last newline,
or `none` when the run holds no further newline. -/
def find_run (cs : List Char) : Option (List Char) :=
  match last_nl_idx (cs.takeWhile py_ws) with
  | none => none
  | some j => some (cs.drop (j + 1))

/-- `re.sub(r'\n\s*\n', '\n\n', text)`: collapse every blank region between
two newlines to exactly one blank line. -/
def collapse_blank_fuel : Nat → List Char → List Char
  | 0, l => l
  | _ + 1, [] => []
  | fuel + 1, c :: cs =>
    if c = '\n' then
      match find_run cs with
      | some rest => '\n' :: '\n' :: collapse_blank_fuel fuel rest
      | none => '\n' :: collapse_blank_fuel fuel cs
    else c :: collapse_blank_fuel fuel cs

def collapse_blank (l : List Char) : List Char :=
  collapse_blank_fuel l.length l

/-- `extract_plain_text` (server.py lines 427-448): the substitutions in
source order, then blank-line collapsing and a final strip. -/
def extract_plain_text (l : List Char) : List Char :=
  py_strip (collapse_blank (repl_dash (sub_hr (sub_code (sub_italic
    (sub_bold (sub_link (sub_image (sub_hash_ws l)))))))))

/-! ## The content renderer (`process_markdown_with_images`, lines 791-903)

The source builds a list `html_parts` of HTML fragments; the model records
each appended fragment as a tagged `Block`.  For the cast-list and
vocabulary blocks the fragment keeps the source text of the block (the
purely internal entry-to-`<div>` formatting is not inspected by any claim);
paragraphs keep their text after the same bold/italic substitutions the
source applies; image blocks keep the alt text and the resolved location
taken from the image dictionary. -/

inductive Block where
  | Heading (title : List Char)
  | CharacterList (content : List Char)
  | VocabularyList (content : List Char)
  | ImageBlock (alt : List Char) (loc : List Char)
  | Rule
  | Paragraph (content : List Char)
  deriving DecidableEq, Repr

/-- `markdown_content.split('\n\n')`: split on each non-overlapping
occurrence of a blank-line separator, left to right. -/
def split_nlnl : List Char → List (List Char)
  | [] => [[]]
  | '\n' :: '\n' :: cs => [] :: split_nlnl cs
  | c :: cs =>
    match split_nlnl cs with
    | [] => [[c]]
    | p :: ps => (c :: p) :: ps

/-- `re.match(r'^# (.+)$', paragraph, re.MULTILINE)`: the (stripped) block
starts with `# ` and the remainder of its first line is nonempty; the
capture is that first line. -/
def title_match (p : List Char) : Option (List Char) :=
  match p with
  | '#' :: ' ' :: rest =>
    let line := rest.takeWhile (fun c => c ≠ '\n')
    if line = [] then none else some line
  | _ => none

/-- The cast-list marker `'**角色：**'` tested with `str.startswith`. -/
def cast_marker : List Char := "**角色：**".toList

/-- The vocabulary marker `'**词汇小课堂：**'` tested with `str.startswith`. -/
def vocab_marker : List Char := "**词汇小课堂：**".toList

/-- `re.search(r'!\[(.*?)\]\((.*?)\)', paragraph)`: first match anywhere in
the block, returning the alt text and path captures. -/
def img_search : List Char → Option (List Char × List Char)
  | [] => none
  | '!' :: '[' :: cs =>
    (match take_to_nonl [']', '('] cs with
     | some (alt, r1) =>
       match take_to_nonl [')'] r1 with
       | some (path, _) => some (alt, path)
       | none => none
     | none => none).elim (img_search ('[' :: cs)) some
  | _ :: cs => img_search cs

/-- `os.path.basename`: the text after the last path separator. -/
def basename (p : List Char) : List Char :=
  ((p.reverse.takeWhile (fun c => c ≠ '/')).reverse)

/-- `re.sub(r'\*\*(.*?)\*\*', r'<strong>\1</strong>', text)` as applied to
ordinary paragraphs (line 894). -/
def sub_bold_html_fuel : Nat → List Char → List Char
  | 0, l => l
  | _ + 1, [] => []
  | fuel + 1, '*' :: '*' :: cs =>
    (take_to_nonl ['*', '*'] cs).elim ('*' :: sub_bold_html_fuel fuel ('*' :: cs))
      (fun p => "<strong>".toList ++ p.1 ++ "</strong>".toList ++ sub_bold_html_fuel fuel p.2)
  | fuel + 1, c :: cs => c :: sub_bold_html_fuel fuel cs

def sub_bold_html (l : List Char) : List Char :=
  sub_bold_html_fuel l.length l

/-- `re.sub(r'\*(.*?)\*', r'<em>\1</em>', text)` as applied to ordinary
paragraphs (line 896). -/
def sub_italic_html_fuel : Nat → List Char → List Char
  | 0, l => l
  | _ + 1, [] => []
  | fuel + 1, '*' :: cs =>
    (take_to_nonl ['*'] cs).elim ('*' :: sub_italic_html_fuel fuel cs)
      (fun p => "<em>".toList ++ p.1 ++ "</em>".toList ++ sub_italic_html_fuel fuel p.2)
  | fuel + 1, c :: cs => c :: sub_italic_html_fuel fuel cs

def sub_italic_html (l : List Char) : List Char :=
  sub_italic_html_fuel l.length l

/-- The image dictionary `image_url_dict`: basenames of found image files
mapped to their absolute paths. -/
abbrev ImgDict := List (List Char × List Char)

/-- Lines 859-898 for a stripped, nonempty block that is neither a heading
nor the relocated cast list: image blocks resolve their basename through the
dictionary and are dropped when the reference does not parse or the basename
is absent (the bare `continue` on line 873); then the rule, vocabulary and
paragraph branches. -/
def render_nonspecial (dict : ImgDict) (p : List Char) : List Block :=
  if ("![".toList).isPrefixOf p then
    match img_search p with
    | some (alt, path) =>
      match dict.lookup (basename path) with
      | some loc => [Block.ImageBlock alt loc]
      | none => []
    | none => []
  else if p = "---".toList then [Block.Rule]
  else if vocab_marker.isPrefixOf p then [Block.VocabularyList p]
  else [Block.Paragraph (sub_italic_html (sub_bold_html p))]

/-- First pass (lines 814-826): record the index of the last block matching
the title pattern and the index and stripped text of the last block starting
with the cast marker, skipping blank blocks. -/
def pass1 : List (List Char) → Nat → Option Nat → Option (Nat × List Char) →
    Option Nat × Option (Nat × List Char)
  | [], _, tAcc, cAcc => (tAcc, cAcc)
  | b :: bs, i, tAcc, cAcc =>
    let p := py_strip b
    if p = [] then pass1 bs (i + 1) tAcc cAcc
    else
      pass1 bs (i + 1)
        (if (title_match p).isSome then some i else tAcc)
        (if cast_marker.isPrefixOf p then some (i, p) else cAcc)

/-- Second pass (lines 829-898): emit blocks in source order; a title block
emits a heading, immediately followed by the cast list when one was found
and this is its recorded title slot; the cast list is skipped at its own
original slot; all other nonempty blocks go through `render_nonspecial`. -/
def pass2 (dict : ImgDict) (tIdx : Option Nat) (castInfo : Option (Nat × List Char)) :
    Nat → List (List Char) → List Block
  | _, [] => []
  | i, b :: bs =>
    let p := py_strip b
    (if p = [] then []
     else
       match title_match p with
       | some ti =>
         Block.Heading ti ::
           (match castInfo with
            | some (_, cd) => if tIdx = some i then [Block.CharacterList cd] else []
            | none => [])
       | none =>
         if (match castInfo with
             | some (ci, _) => cast_marker.isPrefixOf p && i = ci
             | none => false) then []
         else render_nonspecial dict p) ++ pass2 dict tIdx castInfo (i + 1) bs

/-- `process_markdown_with_images` (lines 791-903): split into blocks, find
the title and cast-list positions, then emit. -/
def process_markdown_with_images (md : List Char) (dict : ImgDict) : List Block :=
  let blocks := split_nlnl md
  let r := pass1 blocks 0 none none
  pass2 dict r.1 r.2 0 blocks

/-! ## The story resolver and generation poller (`generate_story`, lines 96-262)

A directory observation is a list of files with name, modification time and
content.  `glob` results are modelled as lists; the source compares `set`
sizes of glob results, which agree with list lengths when the listed names
are distinct (directory listings never repeat a name). -/

structure SFile where
  name : List Char
  mtime : Nat
  content : List Char
  deriving DecidableEq, Repr

/-- Does `glob.glob(story_dir + '/*.md')` list this name?  The wildcard does
not match a leading dot (hidden files). -/
def glob_md (name : List Char) : Bool :=
  name.head? ≠ some '.' &&
    decide (3 ≤ name.length) && name.drop (name.length - 3) = ".md".toList

/-- `needle` occurs as a contiguous substring of the second list. -/
def has_sub (needle : List Char) : List Char → Bool
  | [] => needle.isEmpty
  | c :: rest => needle.isPrefixOf (c :: rest) || has_sub needle rest

/-- Does `glob.glob(story_dir + '/*' + theme + '*.md')` list this name?
The name decomposes as `A ++ theme ++ B ++ ".md"`, equivalently: it ends in
`.md` and `theme` occurs inside the part before that extension; hidden files
are again excluded. -/
def glob_theme_md (theme name : List Char) : Bool :=
  glob_md name && has_sub theme (name.take (name.length - 3))

/-- Python `max(files, key=os.path.getmtime)`: the first file of maximal
modification time (later entries replace only on a strictly greater key);
`none` exactly on an empty list. -/
def py_max_mtime : List SFile → Option SFile
  | [] => none
  | f :: fs => some (fs.foldl (fun a g => if a.mtime < g.mtime then g else a) f)

/-- The cache phase of `generate_story` (lines 96-140): look for existing
theme-matching story files; when some exist, take the most recently
modified; return it as a cached response when its content is not blank,
otherwise fall through to fresh generation (the `if story_content.strip():`
guard on line 111; a read failure falls through the same way and is not
modelled separately). -/
inductive StoryStep where
  | cachedHit (f : SFile)
  | launchGeneration
  deriving DecidableEq, Repr

def generate_story_entry (files : List SFile) (theme : List Char) : StoryStep :=
  let matching := files.filter (fun f => glob_theme_md theme f.name)
  match py_max_mtime matching with
  | none => StoryStep.launchGeneration
  | some latest =>
    if py_strip latest.content = [] then StoryStep.launchGeneration
    else StoryStep.cachedHit latest

/-- One iteration of the wait loop (lines 204-232).  `before` is the
snapshot of story files taken before launching the generator, `current` the
files seen in this iteration.  The new-file branch fires only when the
current count strictly exceeds the snapshot count (line 212); it then picks
the most recently modified file of the set difference.  Otherwise the first
theme-matching file that is not in the snapshot or was modified after the
poll start is picked (lines 222-229). -/
def poll_iter (before : List SFile) (theme : List Char) (startTime : Nat)
    (current : List SFile) : Option SFile :=
  let beforeNames := before.map (fun f => f.name)
  (if before.length < current.length then
    py_max_mtime (current.filter (fun f => ¬ f.name ∈ beforeNames))
   else none).elim
    ((current.filter (fun f => glob_theme_md theme f.name)).find?
      (fun f => ¬ f.name ∈ beforeNames || startTime < f.mtime))
    some

/-- The poll loop: one observation per iteration, stopping at the first
iteration that yields a file (first match wins). -/
def poll_loop (before : List SFile) (theme : List Char) (startTime : Nat) :
    List (List SFile) → Option SFile
  | [] => none
  | cur :: rest =>
    match poll_iter before theme startTime cur with
    | some f => some f
    | none => poll_loop before theme startTime rest

/-- The wait budget: 2700 seconds at one observation per 5-second sleep
bounds the loop at 540 iterations, after which the loop condition
`time.time() - start_time < max_wait_time` fails. -/
def max_wait_iters : Nat := 540

inductive WaitOutcome where
  | found (f : SFile)
  | staleFound (f : SFile)
  | timeout504
  deriving DecidableEq, Repr

/-- The wait phase of `generate_story` (lines 196-247): run the bounded poll
loop over the observed directory snapshots; on success use the found file;
on timeout perform the single best-effort scan of the final directory state
for any theme-matching file regardless of recency, and fail with the 504
timeout response when none exists. -/
def generate_story_wait (before : List SFile) (theme : List Char) (startTime : Nat)
    (snapshots : List (List SFile)) (finalFiles : List SFile) : WaitOutcome :=
  match poll_loop before theme startTime (snapshots.take max_wait_iters) with
  | some f => WaitOutcome.found f
  | none =>
    match py_max_mtime (finalFiles.filter (fun f => glob_theme_md theme f.name)) with
    | some f => WaitOutcome.staleFound f
    | none => WaitOutcome.timeout504

/-! ## The speech synthesis pipeline (`generate_speech_baidu`, lines 506-770)

The observations the function makes of the Baidu API are collected in a
`BaiduEnv`: the token-acquisition outcome, the parsed shape of the
task-creation response, the successive task-query responses, the outcome of
downloading the synthesized speech, and per-chunk short-text responses. -/

/-- The task-creation response as the code inspects it (lines 569-594):
either `response.json()` raises (`ValueError` branch, line 692), or the
parsed dictionary may carry an `error_code` key and may carry a `task_id`. -/
inductive CreateResp where
  | parseFail
  | parsed (hasErrorCode : Bool) (taskId : Option (List Char))
  deriving DecidableEq, Repr

inductive TaskStatus where
  | created
  | running
  | success
  | failed
  | other
  deriving DecidableEq, Repr

/-- One task-query response as inspected on lines 621-684. -/
inductive QueryResp where
  | parseFail
  | errorCode
  | noTasksInfo
  | status (st : TaskStatus) (speechUrl : Option (List Char))
  deriving DecidableEq, Repr

/-- One short-text chunk response (lines 734-753): whether the content type
contains `audio`, and the payload bytes. -/
structure ChunkResp where
  isAudio : Bool
  payload : List Nat
  deriving DecidableEq, Repr

structure BaiduEnv where
  token : Option (List Char)
  createResp : CreateResp
  queryResps : List QueryResp
  download : Option (List Nat)
  chunk : Nat → ChunkResp

/-- The long-text poll loop (lines 601-687): up to 30 queries at a 3-second
interval.  `Created`/`Running` continue; `Success` downloads the speech URL
and returns the payload (returning the audio), with a missing URL or a
failed download breaking out; every other outcome breaks out.  A `none`
result means the long-text path produced nothing and the code falls through
to the short-text API.  Exhausting the modelled response list counts as
exhausting the retry budget. -/
def poll_long : Nat → List QueryResp → Option (List Nat) → Option (List Nat)
  | 0, _, _ => none
  | _ + 1, [], _ => none
  | fuel + 1, r :: rs, download =>
    match r with
    | QueryResp.parseFail => none
    | QueryResp.errorCode => none
    | QueryResp.noTasksInfo => none
    | QueryResp.status TaskStatus.created _ => poll_long fuel rs download
    | QueryResp.status TaskStatus.running _ => poll_long fuel rs download
    | QueryResp.status TaskStatus.success url =>
      match url with
      | some _ => download
      | none => none
    | QueryResp.status TaskStatus.failed _ => none
    | QueryResp.status TaskStatus.other _ => none

/-- Line 540-542: text longer than 10000 characters is cut to its first
10000 characters before the creation request; the same variable feeds the
short-text fallback. -/
def truncate_text (l : List Char) : List Char :=
  if 10000 < l.length then l.take 10000 else l

/-- Line 702: `[text[i:i+500] for i in range(0, len(text), 500)]`. -/
def chunk_parts_fuel : Nat → List Char → List (List Char)
  | 0, _ => []
  | _ + 1, [] => []
  | fuel + 1, l => l.take 500 :: chunk_parts_fuel fuel (l.drop 500)

def chunk_parts (l : List Char) : List (List Char) :=
  chunk_parts_fuel l.length l

/-- The result of `generate_speech_baidu`: the boolean the function returns,
the bytes written to `output_path` (if any), and the list of chunk texts
submitted to the short-text API (empty when the fallback was never
reached). -/
structure SpeechResult where
  success : Bool
  written : Option (List Nat)
  chunkTexts : List (List Char)
  deriving DecidableEq, Repr

/-- The short-text fallback (lines 696-764): split into 500-character
chunks, request each one independently, skip chunks whose response is not
audio, concatenate the audio payloads in chunk order, and succeed exactly
when the buffer is nonempty. -/
def short_text_phase (chunk : Nat → ChunkResp) (text : List Char) : SpeechResult :=
  let parts := chunk_parts text
  let buf := ((List.range parts.length).map
    (fun i => if (chunk i).isAudio then (chunk i).payload else [])).flatten
  if buf = [] then ⟨false, none, parts⟩ else ⟨true, some buf, parts⟩

/-- `generate_speech_baidu` (lines 506-770).  No token is a terminal failure
(line 522).  The text is truncated, then the long-text task is created: a
parsed creation response with an `error_code` key returns failure at once
(line 587), as does one without a `task_id` (line 593) — neither reaches the
fallback.  An unparseable creation response skips straight to the fallback
(line 692), and so does any poll outcome that produced no downloaded audio
(line 689). -/
def generate_speech_baidu (env : BaiduEnv) (text0 : List Char) : SpeechResult :=
  match env.token with
  | none => ⟨false, none, []⟩
  | some _ =>
    let text := truncate_text text0
    match env.createResp with
    | CreateResp.parsed true _ => ⟨false, none, []⟩
    | CreateResp.parsed false none => ⟨false, none, []⟩
    | CreateResp.parsed false (some _) =>
      match poll_long 30 env.queryResps env.download with
      | some bytes => ⟨true, some bytes, []⟩
      | none => short_text_phase env.chunk text
    | CreateResp.parseFail => short_text_phase env.chunk text

/-! ## The audio endpoint (`generate_audio`, lines 316-400) -/

inductive AudioOutcome where
  | ok
  | err400
  | err500_net
  | err500_noStory
  | err500_synthFailed
  deriving DecidableEq, Repr

/-- `generate_audio`: empty text is a 400; the supplied text is stripped of
image references; an unreachable provider is a 500; otherwise synthesis is
attempted on the cleaned text (`synth` abstracts `generate_speech_baidu`
succeeding for a given text).  On failure the most recently modified story
markdown file is read, its plain text extracted, and synthesis retried
exactly once with that text; a 500 results only when the retry also fails
or no story file exists.  The second component records the texts submitted
to synthesis, in order. -/
def generate_audio (text : List Char) (netOk : Bool) (synth : List Char → Bool)
    (files : List SFile) : AudioOutcome × List (List Char) :=
  if text = [] then (AudioOutcome.err400, [])
  else
    let cleaned := sub_image text
    if !netOk then (AudioOutcome.err500_net, [])
    else if synth cleaned then (AudioOutcome.ok, [cleaned])
    else
      match py_max_mtime (files.filter (fun f => glob_md f.name)) with
      | none => (AudioOutcome.err500_noStory, [cleaned])
      | some latest =>
        let pure := extract_plain_text latest.content
        if synth pure then (AudioOutcome.ok, [cleaned, pure])
        else (AudioOutcome.err500_synthFailed, [cleaned, pure])

/-! ## Renderer block-order machinery (for the renderer claims) -/

/-- Emission of one block when no cast list exists in the document: blank
blocks vanish, a title block yields its heading, everything else goes
through `render_nonspecial`. -/
def render_block_nocast (dict : ImgDict) (b : List Char) : List Block :=
  let p := py_strip b
  if p = [] then []
  else
    match title_match p with
    | some ti => [Block.Heading ti]
    | none => render_nonspecial dict p

/-- The heading text of a title block. -/
def title_of (p : List Char) : Option (List Char) := title_match p

/-- The block order the specification describes for a document with one
title block (index `t`) and one cast-list block (index `c`): blocks render
in source order, except that the cast list renders immediately after the
heading and its own original slot is skipped. -/
def relocated_order (dict : ImgDict) (t c : Nat) (cd : List Char) :
    Nat → List (List Char) → List Block
  | _, [] => []
  | i, b :: bs =>
    let p := py_strip b
    (if p = [] then []
     else if i = t then Block.Heading ((title_of p).getD []) :: [Block.CharacterList cd]
     else if i = c then []
     else render_nonspecial dict p) ++ relocated_order dict t c cd (i + 1) bs

theorem pass1_fst_keep :
    ∀ (bs : List (List Char)) (off : Nat) (t0 : Option Nat) (c0 : Option (Nat × List Char)),
      (∀ b ∈ bs, (title_match (py_strip b)).isSome = false) →
      (pass1 bs off t0 c0).1 = t0 := by
  intro bs
  induction bs with
  | nil => intro off t0 c0 _; rfl
  | cons b bs ih =>
    intro off t0 c0 h
    by_cases hp : py_strip b = []
    · show (pass1 (b :: bs) off t0 c0).1 = t0
      simp only [pass1, hp, if_pos rfl]
      exact ih _ _ _ (fun x hx => h x (List.mem_cons_of_mem _ hx))
    · show (pass1 (b :: bs) off t0 c0).1 = t0
      simp only [pass1, if_neg hp]
      rw [h b (List.mem_cons_self _ _)]
      simp only [Bool.false_eq_true, if_false]
      exact ih _ _ _ (fun x hx => h x (List.mem_cons_of_mem _ hx))

theorem pass1_snd_keep :
    ∀ (bs : List (List Char)) (off : Nat) (t0 : Option Nat) (c0 : Option (Nat × List Char)),
      (∀ b ∈ bs, cast_marker.isPrefixOf (py_strip b) = false) →
      (pass1 bs off t0 c0).2 = c0 := by
  intro bs
  induction bs with
  | nil => intro off t0 c0 _; rfl
  | cons b bs ih =>
    intro off t0 c0 h
    by_cases hp : py_strip b = []
    · show (pass1 (b :: bs) off t0 c0).2 = c0
      simp only [pass1, hp, if_pos rfl]
      exact ih _ _ _ (fun x hx => h x (List.mem_cons_of_mem _ hx))
    · show (pass1 (b :: bs) off t0 c0).2 = c0
      simp only [pass1, if_neg hp]
      rw [h b (List.mem_cons_self _ _)]
      simp only [Bool.false_eq_true, if_false]
      exact ih _ _ _ (fun x hx => h x (List.mem_cons_of_mem _ hx))

/-- A character list mentioning none of the markdown marker characters the
extractor rewrites. -/
def marker_free (l : List Char) : Prop :=
  ∀ x ∈ l, x ≠ '#' ∧ x ≠ '[' ∧ x ≠ '*' ∧ x ≠ '`' ∧ x ≠ '-'

/-! ## Supporting lemmas -/

theorem chunk_parts_fuel_congr_aux :
    ∀ (n f₁ f₂ : Nat) (l : List Char), l.length ≤ n → l.length ≤ f₁ → l.length ≤ f₂ →
      chunk_parts_fuel f₁ l = chunk_parts_fuel f₂ l := by
  intro n
  induction n with
  | zero =>
    intro f₁ f₂ l hn _ _
    have : l = [] := List.length_eq_zero.mp (Nat.le_zero.mp hn)
    subst this
    cases f₁ <;> cases f₂ <;> rfl
  | succ n ih =>
    intro f₁ f₂ l hn h₁ h₂
    cases l with
    | nil => cases f₁ <;> cases f₂ <;> rfl
    | cons c cs =>
      simp only [List.length_cons] at hn h₁ h₂
      cases f₁ with
      | zero => omega
      | succ f =>
        cases f₂ with
        | zero => omega
        | succ g =>
          show (c :: cs).take 500 :: chunk_parts_fuel f ((c :: cs).drop 500) =
            (c :: cs).take 500 :: chunk_parts_fuel g ((c :: cs).drop 500)
          congr 1
          have hd : ((c :: cs).drop 500).length = cs.length + 1 - 500 := by
            rw [List.length_drop]
            rfl
          exact ih f g _ (by omega) (by omega) (by omega)

theorem chunk_parts_fuel_congr (f₁ f₂ : Nat) (l : List Char)
    (h₁ : l.length ≤ f₁) (h₂ : l.length ≤ f₂) :
    chunk_parts_fuel f₁ l = chunk_parts_fuel f₂ l :=
  chunk_parts_fuel_congr_aux l.length f₁ f₂ l (le_refl _) h₁ h₂

theorem chunk_parts_eq (l : List Char) (h : l ≠ []) :
    chunk_parts l = l.take 500 :: chunk_parts (l.drop 500) := by
  cases l with
  | nil => exact absurd rfl h
  | cons c cs =>
    have e : chunk_parts (c :: cs) =
        (c :: cs).take 500 :: chunk_parts_fuel cs.length ((c :: cs).drop 500) := rfl
    rw [e]
    congr 1
    apply chunk_parts_fuel_congr
    · rw [List.length_drop]
      simp
    · exact le_refl _

theorem chunk_parts_fuel_flatten :
    ∀ f (l : List Char), l.length ≤ f → (chunk_parts_fuel f l).flatten = l := by
  intro f
  induction f with
  | zero =>
    intro l h
    have : l = [] := List.length_eq_zero.mp (Nat.le_zero.mp h)
    subst this
    rfl
  | succ f ih =>
    intro l h
    cases l with
    | nil => rfl
    | cons c cs =>
      show (((c :: cs).take 500 :: chunk_parts_fuel f ((c :: cs).drop 500))).flatten = _
      simp only [List.length_cons] at h
      rw [List.flatten_cons,
        ih _ (by rw [List.length_drop]; simp only [List.length_cons]; omega),
        List.take_append_drop]

/-- The chunk texts concatenate, in order, back to the input. -/
theorem chunk_parts_flatten (l : List Char) : (chunk_parts l).flatten = l :=
  chunk_parts_fuel_flatten _ _ (le_refl _)

theorem chunk_parts_fuel_mem_length :
    ∀ f (l : List Char), l.length ≤ f → ∀ c ∈ chunk_parts_fuel f l,
      c ≠ [] ∧ c.length ≤ 500 := by
  intro f
  induction f with
  | zero =>
    intro l h c hc
    have : l = [] := List.length_eq_zero.mp (Nat.le_zero.mp h)
    subst this
    simp [chunk_parts_fuel] at hc
  | succ f ih =>
    intro l h c hc
    cases l with
    | nil => simp [chunk_parts_fuel] at hc
    | cons a as =>
      rw [show chunk_parts_fuel (f + 1) (a :: as) =
        (a :: as).take 500 :: chunk_parts_fuel f ((a :: as).drop 500) from rfl] at hc
      simp only [List.length_cons] at h
      rcases List.mem_cons.mp hc with h1 | h1
      · subst h1
        constructor
        · simp
        · rw [List.length_take]
          simp only [List.length_cons]
          omega
      · exact ih _ (by rw [List.length_drop]; simp only [List.length_cons]; omega) _ h1

theorem chunk_parts_fuel_dropLast :
    ∀ f (l : List Char), l.length ≤ f → ∀ c ∈ (chunk_parts_fuel f l).dropLast,
      c.length = 500 := by
  intro f
  induction f with
  | zero =>
    intro l h c hc
    have : l = [] := List.length_eq_zero.mp (Nat.le_zero.mp h)
    subst this
    simp [chunk_parts_fuel] at hc
  | succ f ih =>
    intro l h c hc
    cases l with
    | nil => simp [chunk_parts_fuel] at hc
    | cons a as =>
      rw [show chunk_parts_fuel (f + 1) (a :: as) =
        (a :: as).take 500 :: chunk_parts_fuel f ((a :: as).drop 500) from rfl] at hc
      simp only [List.length_cons] at h
      rcases hr : chunk_parts_fuel f ((a :: as).drop 500) with _ | ⟨r, rs⟩
      · rw [hr] at hc
        simp at hc
      · rw [hr, List.dropLast_cons₂] at hc
        rcases List.mem_cons.mp hc with h1 | h1
        · subst h1
          have hne : (a :: as).drop 500 ≠ [] := by
            intro he
            rw [he] at hr
            cases f <;> simp [chunk_parts_fuel] at hr
          have hlt : 500 < as.length + 1 := by
            have := List.length_lt_of_drop_ne_nil hne
            simp only [List.length_cons] at this
            omega
          rw [List.length_take]
          simp only [List.length_cons]
          omega
        · rw [← hr] at h1
          exact ih _ (by rw [List.length_drop]; simp only [List.length_cons]; omega) _ h1

/-- Every chunk except possibly the last has length exactly 500. -/
theorem chunk_parts_dropLast (l : List Char) :
    ∀ c ∈ (chunk_parts l).dropLast, c.length = 500 :=
  chunk_parts_fuel_dropLast _ _ (le_refl _)

/-- Every chunk is nonempty and at most 500 characters. -/
theorem chunk_parts_mem_length (l : List Char) :
    ∀ c ∈ chunk_parts l, c ≠ [] ∧ c.length ≤ 500 :=
  chunk_parts_fuel_mem_length _ _ (le_refl _)

/-- A 1200-character text splits into exactly the chunk lengths 500, 500,
200. -/
theorem chunk_parts_1200 (l : List Char) (h : l.length = 1200) :
    (chunk_parts l).map List.length = [500, 500, 200] := by
  have h0 : l ≠ [] := by
    intro he
    rw [he] at h
    simp at h
  have e1 := chunk_parts_eq l h0
  have hl1 : (l.drop 500).length = 700 := by
    simp [h]
  have h1 : l.drop 500 ≠ [] := by
    intro he
    rw [he] at hl1
    simp at hl1
  have e2 := chunk_parts_eq _ h1
  have hl2 : ((l.drop 500).drop 500).length = 200 := by
    simp [h]
  have h2 : (l.drop 500).drop 500 ≠ [] := by
    intro he
    rw [he] at hl2
    simp at hl2
  have e3 := chunk_parts_eq _ h2
  have hl3 : (((l.drop 500).drop 500).drop 500).length = 0 := by
    simp [h]
  have h3 : ((l.drop 500).drop 500).drop 500 = [] :=
    List.length_eq_zero.mp hl3
  rw [e1, e2, e3, h3]
  show _ :: _ :: _ :: (chunk_parts []).map List.length = _
  have : chunk_parts [] = [] := rfl
  rw [this]
  simp [List.length_take, h, hl1, hl2]

theorem py_max_mtime_none_iff (l : List SFile) :
    py_max_mtime l = none ↔ l = [] := by
  cases l <;> simp [py_max_mtime]

theorem py_max_mtime_foldl_aux (fs : List SFile) :
    ∀ a, (fs.foldl (fun a g => if a.mtime < g.mtime then g else a) a = a ∨
        fs.foldl (fun a g => if a.mtime < g.mtime then g else a) a ∈ fs) ∧
      a.mtime ≤ (fs.foldl (fun a g => if a.mtime < g.mtime then g else a) a).mtime ∧
      ∀ g ∈ fs, g.mtime ≤ (fs.foldl (fun a g => if a.mtime < g.mtime then g else a) a).mtime := by
  induction fs with
  | nil => intro a; simp
  | cons b bs ih =>
    intro a
    simp only [List.foldl_cons]
    by_cases hlt : a.mtime < b.mtime
    · simp only [hlt, if_true]
      refine ⟨?_, ?_, ?_⟩
      · rcases (ih b).1 with h | h
        · right
          rw [h]
          exact List.mem_cons_self _ _
        · right
          exact List.mem_cons_of_mem _ h
      · exact le_trans (le_of_lt hlt) (ih b).2.1
      · intro g hg
        rcases List.mem_cons.mp hg with h | h
        · rw [h]
          exact (ih b).2.1
        · exact (ih b).2.2 g h
    · simp only [hlt, if_false]
      refine ⟨?_, (ih a).2.1, ?_⟩
      · rcases (ih a).1 with h | h
        · exact Or.inl h
        · exact Or.inr (List.mem_cons_of_mem _ h)
      · intro g hg
        rcases List.mem_cons.mp hg with h | h
        · rw [h]
          exact le_trans (Nat.le_of_not_lt hlt) (ih a).2.1
        · exact (ih a).2.2 g h

theorem py_max_mtime_mem {l : List SFile} {f : SFile}
    (h : py_max_mtime l = some f) : f ∈ l := by
  cases l with
  | nil => simp [py_max_mtime] at h
  | cons a fs =>
    simp only [py_max_mtime, Option.some.injEq] at h
    rcases (py_max_mtime_foldl_aux fs a).1 with h1 | h1
    · rw [← h, h1]
      exact List.mem_cons_self _ _
    · rw [← h]
      exact List.mem_cons_of_mem _ h1

theorem py_max_mtime_is_max {l : List SFile} {f : SFile}
    (h : py_max_mtime l = some f) : ∀ g ∈ l, g.mtime ≤ f.mtime := by
  cases l with
  | nil => simp [py_max_mtime] at h
  | cons a fs =>
    simp only [py_max_mtime, Option.some.injEq] at h
    intro g hg
    rcases List.mem_cons.mp hg with h1 | h1
    · subst h1
      rw [← h]
      exact (py_max_mtime_foldl_aux fs g).2.1
    · rw [← h]
      exact (py_max_mtime_foldl_aux fs a).2.2 g h1

/-! ## Renderer block-order lemmas (for the renderer claims) -/

theorem pass1_step_blank (b : List Char) (bs : List (List Char)) (off : Nat)
    (t0 : Option Nat) (c0 : Option (Nat × List Char)) (hp : py_strip b = []) :
    pass1 (b :: bs) off t0 c0 = pass1 bs (off + 1) t0 c0 := by
  simp only [pass1]
  rw [if_pos hp]

theorem pass1_step (b : List Char) (bs : List (List Char)) (off : Nat)
    (t0 : Option Nat) (c0 : Option (Nat × List Char)) (hp : py_strip b ≠ []) :
    pass1 (b :: bs) off t0 c0 = pass1 bs (off + 1)
      (if (title_match (py_strip b)).isSome then some off else t0)
      (if cast_marker.isPrefixOf (py_strip b) then some (off, py_strip b) else c0) := by
  simp only [pass1, if_neg hp]

theorem pass1_fst_last :
    ∀ (bs : List (List Char)) (off : Nat) (t0 : Option Nat) (c0 : Option (Nat × List Char))
      (k : Nat), k < bs.length →
      (title_match (py_strip (bs.getD k []))).isSome = true →
      (∀ j, j < bs.length → (title_match (py_strip (bs.getD j []))).isSome = true → j = k) →
      (pass1 bs off t0 c0).1 = some (off + k) := by
  intro bs
  induction bs with
  | nil => intro off t0 c0 k hk; simp at hk
  | cons b bs ih =>
    intro off t0 c0 k hk hkt huniq
    cases k with
    | zero =>
      rw [List.getD_cons_zero] at hkt
      have hp : py_strip b ≠ [] := by
        intro he
        rw [he] at hkt
        simp [title_match] at hkt
      rw [Nat.add_zero, pass1_step b bs off t0 c0 hp, hkt, if_pos rfl]
      apply pass1_fst_keep
      intro x hx
      obtain ⟨j, hj, hjx⟩ := List.mem_iff_getElem.mp hx
      by_contra hc
      rw [Bool.not_eq_false] at hc
      have : j + 1 = 0 := by
        apply huniq (j + 1) (by simp; omega)
        rw [List.getD_cons_succ, List.getD_eq_getElem _ _ hj, hjx]
        exact hc
      omega
    | succ j =>
      rw [List.getD_cons_succ] at hkt
      have hb : (title_match (py_strip b)).isSome = false := by
        by_contra hc
        rw [Bool.not_eq_false] at hc
        have : (0 : Nat) = j + 1 := by
          apply huniq 0 (by simp)
          rw [List.getD_cons_zero]
          exact hc
        omega
      have hnext : ∀ j', j' < bs.length →
          (title_match (py_strip (bs.getD j' []))).isSome = true → j' = j := by
        intro j' hj' hj't
        have := huniq (j' + 1) (by simp; omega)
          (by rw [List.getD_cons_succ]; exact hj't)
        omega
      have harith : off + 1 + j = off + (j + 1) := by omega
      by_cases hp : py_strip b = []
      · rw [pass1_step_blank b bs off t0 c0 hp,
          ih (off + 1) t0 c0 j (by simp at hk; omega) hkt hnext, harith]
      · rw [pass1_step b bs off t0 c0 hp, hb]
        simp only [Bool.false_eq_true, if_false]
        rw [ih (off + 1) _ _ j (by simp at hk; omega) hkt hnext, harith]

theorem pass1_snd_last :
    ∀ (bs : List (List Char)) (off : Nat) (t0 : Option Nat) (c0 : Option (Nat × List Char))
      (k : Nat), k < bs.length →
      cast_marker.isPrefixOf (py_strip (bs.getD k [])) = true →
      (∀ j, j < bs.length → cast_marker.isPrefixOf (py_strip (bs.getD j [])) = true → j = k) →
      (pass1 bs off t0 c0).2 = some (off + k, py_strip (bs.getD k [])) := by
  intro bs
  induction bs with
  | nil => intro off t0 c0 k hk; simp at hk
  | cons b bs ih =>
    intro off t0 c0 k hk hkc huniq
    cases k with
    | zero =>
      rw [List.getD_cons_zero] at hkc ⊢
      have hp : py_strip b ≠ [] := by
        intro he
        rw [he] at hkc
        exact absurd hkc (by decide)
      rw [Nat.add_zero, pass1_step b bs off t0 c0 hp, hkc, if_pos rfl]
      apply pass1_snd_keep
      intro x hx
      obtain ⟨j, hj, hjx⟩ := List.mem_iff_getElem.mp hx
      by_contra hc
      rw [Bool.not_eq_false] at hc
      have : j + 1 = 0 := by
        apply huniq (j + 1) (by simp; omega)
        rw [List.getD_cons_succ, List.getD_eq_getElem _ _ hj, hjx]
        exact hc
      omega
    | succ j =>
      rw [List.getD_cons_succ] at hkc ⊢
      have hb : cast_marker.isPrefixOf (py_strip b) = false := by
        by_contra hc
        rw [Bool.not_eq_false] at hc
        have : (0 : Nat) = j + 1 := by
          apply huniq 0 (by simp)
          rw [List.getD_cons_zero]
          exact hc
        omega
      have hnext : ∀ j', j' < bs.length →
          cast_marker.isPrefixOf (py_strip (bs.getD j' [])) = true → j' = j := by
        intro j' hj' hj'c
        have := huniq (j' + 1) (by simp; omega)
          (by rw [List.getD_cons_succ]; exact hj'c)
        omega
      have harith : off + 1 + j = off + (j + 1) := by omega
      by_cases hp : py_strip b = []
      · rw [pass1_step_blank b bs off t0 c0 hp,
          ih (off + 1) t0 c0 j (by simp at hk; omega) hkc hnext, harith]
      · rw [pass1_step b bs off t0 c0 hp, hb]
        simp only [Bool.false_eq_true, if_false]
        rw [ih (off + 1) _ _ j (by simp at hk; omega) hkc hnext, harith]

theorem pass2_relocated (dict : ImgDict) (t c : Nat) (cd : List Char) :
    ∀ (bs : List (List Char)) (off : Nat),
      (∀ j, j < bs.length →
        (title_match (py_strip (bs.getD j []))).isSome = true → off + j = t) →
      (∀ j, j < bs.length →
        cast_marker.isPrefixOf (py_strip (bs.getD j [])) = true → off + j = c) →
      (∀ j, j < bs.length → off + j = t →
        (title_match (py_strip (bs.getD j []))).isSome = true) →
      (∀ j, j < bs.length → off + j = c →
        cast_marker.isPrefixOf (py_strip (bs.getD j [])) = true) →
      pass2 dict (some t) (some (c, cd)) off bs = relocated_order dict t c cd off bs := by
  intro bs
  induction bs with
  | nil => intro off _ _ _ _; rfl
  | cons b bs ih =>
    intro off h1 h2 h3 h4
    have hshift : pass2 dict (some t) (some (c, cd)) (off + 1) bs =
        relocated_order dict t c cd (off + 1) bs := by
      apply ih
      · intro j hj hjt
        have := h1 (j + 1) (by simp; omega) (by rw [List.getD_cons_succ]; exact hjt)
        omega
      · intro j hj hjc
        have := h2 (j + 1) (by simp; omega) (by rw [List.getD_cons_succ]; exact hjc)
        omega
      · intro j hj hjt
        have := h3 (j + 1) (by simp; omega) (by omega)
        rw [List.getD_cons_succ] at this
        exact this
      · intro j hj hjc
        have := h4 (j + 1) (by simp; omega) (by omega)
        rw [List.getD_cons_succ] at this
        exact this
    by_cases hp : py_strip b = []
    · show (if py_strip b = [] then [] else _) ++ _ =
        (if py_strip b = [] then [] else _) ++ _
      rw [if_pos hp, if_pos hp, hshift]
    · rcases ht : title_match (py_strip b) with _ | ti
      · -- not a title block
        have hofft : off ≠ t := by
          intro he
          have := h3 0 (by simp) (by omega)
          rw [List.getD_cons_zero, ht] at this
          simp at this
        by_cases hc : cast_marker.isPrefixOf (py_strip b)
        · -- the cast-list slot
          have hoffc : off = c := by
            have := h2 0 (by simp) (by rw [List.getD_cons_zero]; exact hc)
            omega
          show (if py_strip b = [] then []
              else match title_match (py_strip b) with
                | some ti => _
                | none => if cast_marker.isPrefixOf (py_strip b) && off = c then []
                    else render_nonspecial dict (py_strip b)) ++ _ = _
          rw [if_neg hp]
          show (match title_match (py_strip b) with
            | some ti => Block.Heading ti ::
                (if (some t : Option Nat) = some off then [Block.CharacterList cd] else [])
            | none => if cast_marker.isPrefixOf (py_strip b) && off = c then []
                else render_nonspecial dict (py_strip b)) ++ _ = _
          rw [ht]
          show (if cast_marker.isPrefixOf (py_strip b) && off = c then []
            else render_nonspecial dict (py_strip b)) ++ _ = _
          rw [show (cast_marker.isPrefixOf (py_strip b) && off = c) = true by
            rw [hc]; simp [hoffc]]
          show [] ++ pass2 dict (some t) (some (c, cd)) (off + 1) bs = _
          rw [hshift]
          show relocated_order dict t c cd (off + 1) bs =
            relocated_order dict t c cd off (b :: bs)
          show _ = (if py_strip b = [] then []
            else if off = t then _ else if off = c then []
            else render_nonspecial dict (py_strip b)) ++ relocated_order dict t c cd (off + 1) bs
          rw [if_neg hp, if_neg hofft, if_pos hoffc]
          rfl
        · -- an ordinary block
          have hoffc : off ≠ c := by
            intro he
            have := h4 0 (by simp) (by omega)
            rw [List.getD_cons_zero] at this
            exact hc (by rw [this])
          show (if py_strip b = [] then []
              else match title_match (py_strip b) with
                | some ti => _
                | none => _) ++ _ = _
          rw [if_neg hp]
          show (match title_match (py_strip b) with
            | some ti => Block.Heading ti ::
                (if (some t : Option Nat) = some off then [Block.CharacterList cd] else [])
            | none => if cast_marker.isPrefixOf (py_strip b) && off = c then []
                else render_nonspecial dict (py_strip b)) ++ _ = _
          rw [ht]
          show (if cast_marker.isPrefixOf (py_strip b) && off = c then []
            else render_nonspecial dict (py_strip b)) ++ _ = _
          have hc' : cast_marker.isPrefixOf (py_strip b) = false :=
            Bool.not_eq_true _ ▸ hc
          rw [show (cast_marker.isPrefixOf (py_strip b) && off = c) = false by
            rw [hc']; rfl]
          show render_nonspecial dict (py_strip b) ++
            pass2 dict (some t) (some (c, cd)) (off + 1) bs = _
          rw [hshift]
          show _ = (if py_strip b = [] then []
            else if off = t then _ else if off = c then []
            else render_nonspecial dict (py_strip b)) ++ relocated_order dict t c cd (off + 1) bs
          rw [if_neg hp, if_neg hofft, if_neg hoffc]
      · -- the title block
        have hofft : off = t := by
          have := h1 0 (by simp) (by rw [List.getD_cons_zero, ht]; rfl)
          omega
        show (if py_strip b = [] then []
            else match title_match (py_strip b) with
              | some ti => Block.Heading ti ::
                  (if (some t : Option Nat) = some off then [Block.CharacterList cd] else [])
              | none => _) ++ _ = _
        rw [if_neg hp]
        show (match title_match (py_strip b) with
          | some ti => Block.Heading ti ::
              (if (some t : Option Nat) = some off then [Block.CharacterList cd] else [])
          | none => if cast_marker.isPrefixOf (py_strip b) && off = c then []
              else render_nonspecial dict (py_strip b)) ++ _ = _
        rw [ht]
        show (Block.Heading ti ::
          (if (some t : Option Nat) = some off then [Block.CharacterList cd] else [])) ++ _ = _
        rw [if_pos (by rw [hofft]), hshift]
        show _ = (if py_strip b = [] then []
          else if off = t then Block.Heading ((title_of (py_strip b)).getD []) ::
            [Block.CharacterList cd] else if off = c then []
          else render_nonspecial dict (py_strip b)) ++ relocated_order dict t c cd (off + 1) bs
        rw [if_neg hp, if_pos hofft]
        simp [title_of, ht]

theorem render_nonspecial_len (dict : ImgDict) (p : List Char) :
    (render_nonspecial dict p).length ≤ 1 := by
  unfold render_nonspecial
  split
  · split
    · split
      · rfl
      · exact Nat.zero_le _
    · exact Nat.zero_le _
  · split
    · rfl
    · split
      · rfl
      · rfl

theorem pass2_none_eq (dict : ImgDict) :
    ∀ (bs : List (List Char)) (i : Nat) (tIdx : Option Nat),
      pass2 dict tIdx none i bs = bs.flatMap (render_block_nocast dict) := by
  intro bs
  induction bs with
  | nil => intro i t; rfl
  | cons b bs ih =>
    intro i t
    simp only [pass2]
    rw [List.flatMap_cons, ih (i + 1) t]
    congr 1

/-! ## Extractor idempotence machinery

On marker-free text (no `#`, `[`, `*`, backtick or `-` characters) the
substitution passes of `extract_plain_text` are the identity, so the
extractor reduces to blank-line collapsing followed by a strip; the lemmas
here show that those two normalisations are idempotent and commute. -/

theorem sub_hash_ws_fuel_id :
    ∀ (f : Nat) (l : List Char), (∀ x ∈ l, x ≠ '#') → sub_hash_ws_fuel f l = l := by
  intro f
  induction f with
  | zero => intro l _; rfl
  | succ f ih =>
    intro l h
    cases l with
    | nil => rfl
    | cons c cs =>
      show (if c = '#' then _ else c :: sub_hash_ws_fuel f cs) = c :: cs
      rw [if_neg (h c (List.mem_cons_self _ _)),
        ih cs (fun x hx => h x (List.mem_cons_of_mem _ hx))]

theorem sub_image_fuel_id :
    ∀ (f : Nat) (l : List Char), (∀ x ∈ l, x ≠ '[') → sub_image_fuel f l = l := by
  intro f
  induction f with
  | zero => intro l _; rfl
  | succ f ih =>
    intro l h
    cases l with
    | nil => rfl
    | cons c cs =>
      show (if c = '!' ∧ cs.head? = some '[' then _ else c :: sub_image_fuel f cs) = c :: cs
      rw [if_neg, ih cs (fun x hx => h x (List.mem_cons_of_mem _ hx))]
      rintro ⟨_, hhd⟩
      cases cs with
      | nil => exact Option.noConfusion hhd
      | cons d ds =>
        have : d = '[' := by simpa using hhd
        exact h d (List.mem_cons_of_mem _ (List.mem_cons_self _ _)) this

theorem sub_link_fuel_id :
    ∀ (f : Nat) (l : List Char), (∀ x ∈ l, x ≠ '[') → sub_link_fuel f l = l := by
  intro f
  induction f with
  | zero => intro l _; rfl
  | succ f ih =>
    intro l h
    cases l with
    | nil => rfl
    | cons c cs =>
      show (if c = '[' then _ else c :: sub_link_fuel f cs) = c :: cs
      rw [if_neg (h c (List.mem_cons_self _ _)),
        ih cs (fun x hx => h x (List.mem_cons_of_mem _ hx))]

theorem sub_bold_fuel_id :
    ∀ (f : Nat) (l : List Char), (∀ x ∈ l, x ≠ '*') → sub_bold_fuel f l = l := by
  intro f
  induction f with
  | zero => intro l _; rfl
  | succ f ih =>
    intro l h
    cases l with
    | nil => rfl
    | cons c cs =>
      show (if c = '*' ∧ cs.head? = some '*' then _ else c :: sub_bold_fuel f cs) = c :: cs
      rw [if_neg, ih cs (fun x hx => h x (List.mem_cons_of_mem _ hx))]
      rintro ⟨hc, _⟩
      exact h c (List.mem_cons_self _ _) hc

theorem sub_italic_fuel_id :
    ∀ (f : Nat) (l : List Char), (∀ x ∈ l, x ≠ '*') → sub_italic_fuel f l = l := by
  intro f
  induction f with
  | zero => intro l _; rfl
  | succ f ih =>
    intro l h
    cases l with
    | nil => rfl
    | cons c cs =>
      show (if c = '*' then _ else c :: sub_italic_fuel f cs) = c :: cs
      rw [if_neg (h c (List.mem_cons_self _ _)),
        ih cs (fun x hx => h x (List.mem_cons_of_mem _ hx))]

theorem sub_code_fuel_id :
    ∀ (f : Nat) (l : List Char), (∀ x ∈ l, x ≠ '`') → sub_code_fuel f l = l := by
  intro f
  induction f with
  | zero => intro l _; rfl
  | succ f ih =>
    intro l h
    cases l with
    | nil => rfl
    | cons c cs =>
      show (if c = '`' ∧ _ then _ else c :: sub_code_fuel f cs) = c :: cs
      rw [if_neg, ih cs (fun x hx => h x (List.mem_cons_of_mem _ hx))]
      rintro ⟨hc, _⟩
      exact h c (List.mem_cons_self _ _) hc

theorem sub_hr_fuel_id :
    ∀ (f : Nat) (l : List Char), (∀ x ∈ l, x ≠ '-') → sub_hr_fuel f l = l := by
  intro f
  induction f with
  | zero => intro l _; rfl
  | succ f ih =>
    intro l h
    cases l with
    | nil => rfl
    | cons c cs =>
      show (if c = '-' ∧ _ then _ else c :: sub_hr_fuel f cs) = c :: cs
      rw [if_neg, ih cs (fun x hx => h x (List.mem_cons_of_mem _ hx))]
      rintro ⟨hc, _⟩
      exact h c (List.mem_cons_self _ _) hc

theorem repl_dash_fuel_id :
    ∀ (f : Nat) (l : List Char), (∀ x ∈ l, x ≠ '-') → repl_dash_fuel f l = l := by
  intro f
  induction f with
  | zero => intro l _; rfl
  | succ f ih =>
    intro l h
    cases l with
    | nil => rfl
    | cons c cs =>
      show (if c = '-' ∧ _ then _ else c :: repl_dash_fuel f cs) = c :: cs
      rw [if_neg, ih cs (fun x hx => h x (List.mem_cons_of_mem _ hx))]
      rintro ⟨hc, _⟩
      exact h c (List.mem_cons_self _ _) hc

/-- On marker-free text all substitution passes are the identity and the
extractor is exactly blank-line collapsing followed by `strip`. -/
theorem extract_eq_strip_collapse (l : List Char) (h : marker_free l) :
    extract_plain_text l = py_strip (collapse_blank l) := by
  unfold extract_plain_text
  rw [show sub_hash_ws l = l from sub_hash_ws_fuel_id _ _ (fun x hx => (h x hx).1),
    show sub_image l = l from sub_image_fuel_id _ _ (fun x hx => (h x hx).2.1),
    show sub_link l = l from sub_link_fuel_id _ _ (fun x hx => (h x hx).2.1),
    show sub_bold l = l from sub_bold_fuel_id _ _ (fun x hx => (h x hx).2.2.1),
    show sub_italic l = l from sub_italic_fuel_id _ _ (fun x hx => (h x hx).2.2.1),
    show sub_code l = l from sub_code_fuel_id _ _ (fun x hx => (h x hx).2.2.2.1),
    show sub_hr l = l from sub_hr_fuel_id _ _ (fun x hx => (h x hx).2.2.2.2),
    show repl_dash l = l from repl_dash_fuel_id _ _ (fun x hx => (h x hx).2.2.2.2)]

theorem last_nl_idx_none_iff (l : List Char) :
    last_nl_idx l = none ↔ ¬ '\n' ∈ l := by
  induction l with
  | nil => simp [last_nl_idx]
  | cons c cs ih =>
    simp only [last_nl_idx]
    rcases h : last_nl_idx cs with _ | j
    · by_cases hc : c = '\n'
      · simp [hc]
      · simp only [if_neg hc]
        simp only [List.mem_cons, not_or]
        constructor
        · intro _
          exact ⟨fun he => hc he.symm, ih.mp h⟩
        · intro _
          trivial
    · constructor
      · intro hx
        exact Option.noConfusion hx
      · intro hx
        exfalso
        apply hx
        right
        by_contra hn
        rw [ih.mpr hn] at h
        exact Option.noConfusion h

theorem last_nl_idx_decomp (l : List Char) :
    ∀ j, last_nl_idx l = some j →
      ∃ w1 w2, l = w1 ++ '\n' :: w2 ∧ w1.length = j ∧ ¬ '\n' ∈ w2 := by
  induction l with
  | nil => intro j h; exact Option.noConfusion h
  | cons c cs ih =>
    intro j h
    simp only [last_nl_idx] at h
    rcases hcs : last_nl_idx cs with _ | j'
    · rw [hcs] at h
      by_cases hc : c = '\n'
      · rw [if_pos hc] at h
        cases h
        exact ⟨[], cs, by rw [hc]; rfl, rfl, (last_nl_idx_none_iff cs).mp hcs⟩
      · rw [if_neg hc] at h
        exact Option.noConfusion h
    · rw [hcs] at h
      cases h
      obtain ⟨w1, w2, he, hl, hw⟩ := ih j' hcs
      exact ⟨c :: w1, w2, by rw [he, List.cons_append], by simp [hl], hw⟩

theorem last_nl_idx_append_no_nl (u : List Char) (hu : ¬ '\n' ∈ u) :
    ∀ a, last_nl_idx (a ++ u) = last_nl_idx a := by
  intro a
  induction a with
  | nil =>
    show last_nl_idx u = none
    exact (last_nl_idx_none_iff u).mpr hu
  | cons c a ih =>
    show last_nl_idx (c :: (a ++ u)) = last_nl_idx (c :: a)
    simp only [last_nl_idx, ih]

theorem last_nl_idx_snoc_nl (w : List Char) :
    last_nl_idx (w ++ ['\n']) = some w.length := by
  induction w with
  | nil => rfl
  | cons c w ih =>
    show last_nl_idx (c :: (w ++ ['\n'])) = some (w.length + 1)
    simp only [last_nl_idx, ih]

theorem takeWhile_append_of_all {p : Char → Bool} (a b : List Char)
    (h : ∀ x ∈ a, p x = true) :
    (a ++ b).takeWhile p = a ++ b.takeWhile p := by
  induction a with
  | nil => rfl
  | cons c a ih =>
    show (c :: (a ++ b)).takeWhile p = c :: (a ++ b.takeWhile p)
    rw [List.takeWhile_cons, if_pos (h c (List.mem_cons_self _ _)),
      ih (fun x hx => h x (List.mem_cons_of_mem _ hx))]

theorem dropWhile_append_of_all {p : Char → Bool} (a b : List Char)
    (h : ∀ x ∈ a, p x = true) :
    (a ++ b).dropWhile p = b.dropWhile p := by
  induction a with
  | nil => rfl
  | cons c a ih =>
    show (c :: (a ++ b)).dropWhile p = b.dropWhile p
    rw [List.dropWhile_cons, if_pos (h c (List.mem_cons_self _ _)),
      ih (fun x hx => h x (List.mem_cons_of_mem _ hx))]

theorem takeWhile_dropWhile_nil (p : Char → Bool) (l : List Char) :
    (l.dropWhile p).takeWhile p = [] := by
  induction l with
  | nil => rfl
  | cons c cs ih =>
    rw [List.dropWhile_cons]
    by_cases hc : p c = true
    · rw [if_pos hc]
      exact ih
    · rw [if_neg hc, List.takeWhile_cons, if_neg hc]

theorem dropWhile_head_false {p : Char → Bool} {l : List Char} {d : Char} {m : List Char}
    (h : l.dropWhile p = d :: m) : p d = false := by
  induction l with
  | nil => exact Option.noConfusion (congrArg List.head? h)
  | cons c cs ih =>
    rw [List.dropWhile_cons] at h
    by_cases hc : p c = true
    · rw [if_pos hc] at h
      exact ih h
    · rw [if_neg hc] at h
      cases h
      exact Bool.not_eq_true _ ▸ hc

/-- Decomposition of a successful `find_run`: the consumed span is an
all-whitespace prefix ending at its last newline, and the remainder has no
newline in its own leading whitespace. -/
theorem find_run_decomp (cs r : List Char) (h : find_run cs = some r) :
    ∃ w1, cs = w1 ++ '\n' :: r ∧ (∀ x ∈ w1, py_ws x = true) ∧
      ¬ '\n' ∈ r.takeWhile py_ws := by
  unfold find_run at h
  rcases hln : last_nl_idx (cs.takeWhile py_ws) with _ | j
  · rw [hln] at h
    exact Option.noConfusion h
  · rw [hln] at h
    cases h
    obtain ⟨w1, w2, he, hl, hw2⟩ := last_nl_idx_decomp _ j hln
    have hcs : cs = (w1 ++ '\n' :: w2) ++ cs.dropWhile py_ws := by
      rw [← he, List.takeWhile_append_dropWhile]
    have hw1ws : ∀ x ∈ w1, py_ws x = true := by
      intro x hx
      apply List.mem_takeWhile_imp (l := cs) (p := py_ws)
      rw [he]
      exact List.mem_append.mpr (Or.inl hx)
    have hw2ws : ∀ x ∈ w2, py_ws x = true := by
      intro x hx
      apply List.mem_takeWhile_imp (l := cs) (p := py_ws)
      rw [he]
      exact List.mem_append.mpr (Or.inr (List.mem_cons_of_mem _ hx))
    have hlen : (w1 ++ ['\n']).length = j + 1 := by
      simp [hl]
    have hdrop : cs.drop (j + 1) = w2 ++ cs.dropWhile py_ws := by
      conv_lhs => rw [hcs]
      calc ((w1 ++ '\n' :: w2) ++ cs.dropWhile py_ws).drop (j + 1)
          = ((w1 ++ ['\n']) ++ (w2 ++ cs.dropWhile py_ws)).drop ((w1 ++ ['\n']).length) := by
            rw [hlen]
            congr 1
            simp
        _ = w2 ++ cs.dropWhile py_ws := List.drop_left _ _
    refine ⟨w1, ?_, hw1ws, ?_⟩
    · rw [hdrop]
      conv_lhs => rw [hcs]
      simp
    · rw [hdrop, takeWhile_append_of_all _ _ hw2ws]
      intro hmem
      rcases List.mem_append.mp hmem with hx | hx
      · exact hw2 hx
      · have := List.mem_takeWhile_imp hx
        rw [takeWhile_dropWhile_nil] at hx
        exact absurd hx (List.not_mem_nil _)

/-- Construction of a `find_run` result from a decomposed whitespace run. -/
theorem find_run_build (w1 z : List Char) (hw : ∀ x ∈ w1, py_ws x = true)
    (hz : ¬ '\n' ∈ z.takeWhile py_ws) :
    find_run (w1 ++ '\n' :: z) = some z := by
  unfold find_run
  have htw : (w1 ++ '\n' :: z).takeWhile py_ws = (w1 ++ ['\n']) ++ z.takeWhile py_ws := by
    rw [takeWhile_append_of_all _ _ hw, List.takeWhile_cons]
    rw [if_pos (by rfl)]
    simp
  rw [htw, last_nl_idx_append_no_nl _ hz, last_nl_idx_snoc_nl]
  show some ((w1 ++ '\n' :: z).drop (w1.length + 1)) = some z
  congr 1
  calc (w1 ++ '\n' :: z).drop (w1.length + 1)
      = ((w1 ++ ['\n']) ++ z).drop ((w1 ++ ['\n']).length) := by
        congr 1
        · simp
        · simp
    _ = z := List.drop_left _ _

theorem find_run_none_iff (cs : List Char) :
    find_run cs = none ↔ ¬ '\n' ∈ cs.takeWhile py_ws := by
  unfold find_run
  rcases hln : last_nl_idx (cs.takeWhile py_ws) with _ | j
  · simp [(last_nl_idx_none_iff _).mp hln]
  · simp only []
    constructor
    · intro h
      exact Option.noConfusion h
    · intro h
      exfalso
      rw [(last_nl_idx_none_iff _).mpr h] at hln
      exact Option.noConfusion hln

theorem find_run_length {cs r : List Char} (h : find_run cs = some r) :
    r.length < cs.length := by
  obtain ⟨w1, he, _, _⟩ := find_run_decomp cs r h
  rw [he]
  simp
  omega

theorem collapse_blank_fuel_congr :
    ∀ (n f₁ f₂ : Nat) (l : List Char), l.length ≤ n → l.length ≤ f₁ → l.length ≤ f₂ →
      collapse_blank_fuel f₁ l = collapse_blank_fuel f₂ l := by
  intro n
  induction n with
  | zero =>
    intro f₁ f₂ l hn _ _
    have : l = [] := List.length_eq_zero.mp (Nat.le_zero.mp hn)
    subst this
    cases f₁ <;> cases f₂ <;> rfl
  | succ n ih =>
    intro f₁ f₂ l hn h₁ h₂
    cases l with
    | nil => cases f₁ <;> cases f₂ <;> rfl
    | cons c cs =>
      simp only [List.length_cons] at hn h₁ h₂
      cases f₁ with
      | zero => omega
      | succ f =>
        cases f₂ with
        | zero => omega
        | succ g =>
          show (if c = '\n' then _ else c :: collapse_blank_fuel f cs) =
            (if c = '\n' then _ else c :: collapse_blank_fuel g cs)
          by_cases hc : c = '\n'
          · rw [if_pos hc, if_pos hc]
            rcases hfr : find_run cs with _ | rest
            · show '\n' :: collapse_blank_fuel f cs = '\n' :: collapse_blank_fuel g cs
              rw [ih f g cs (by omega) (by omega) (by omega)]
            · have hr := find_run_length hfr
              show '\n' :: '\n' :: collapse_blank_fuel f rest =
                '\n' :: '\n' :: collapse_blank_fuel g rest
              rw [ih f g rest (by omega) (by omega) (by omega)]
          · rw [if_neg hc, if_neg hc, ih f g cs (by omega) (by omega) (by omega)]

theorem collapse_blank_cons_ne (c : Char) (cs : List Char) (hc : c ≠ '\n') :
    collapse_blank (c :: cs) = c :: collapse_blank cs := by
  have e : collapse_blank (c :: cs) =
      (if c = '\n' then
        match find_run cs with
        | some rest => '\n' :: '\n' :: collapse_blank_fuel cs.length rest
        | none => '\n' :: collapse_blank_fuel cs.length cs
      else c :: collapse_blank_fuel cs.length cs) := rfl
  rw [e, if_neg hc]
  rfl

theorem collapse_blank_cons_nl_none (cs : List Char) (h : find_run cs = none) :
    collapse_blank ('\n' :: cs) = '\n' :: collapse_blank cs := by
  have e : collapse_blank ('\n' :: cs) =
      (if ('\n' : Char) = '\n' then
        match find_run cs with
        | some rest => '\n' :: '\n' :: collapse_blank_fuel cs.length rest
        | none => '\n' :: collapse_blank_fuel cs.length cs
      else '\n' :: collapse_blank_fuel cs.length cs) := rfl
  rw [e, if_pos rfl, h]
  rfl

theorem collapse_blank_cons_nl_some (cs rest : List Char) (h : find_run cs = some rest) :
    collapse_blank ('\n' :: cs) = '\n' :: '\n' :: collapse_blank rest := by
  have e : collapse_blank ('\n' :: cs) =
      (if ('\n' : Char) = '\n' then
        match find_run cs with
        | some r => '\n' :: '\n' :: collapse_blank_fuel cs.length r
        | none => '\n' :: collapse_blank_fuel cs.length cs
      else '\n' :: collapse_blank_fuel cs.length cs) := rfl
  rw [e, if_pos rfl, h]
  show '\n' :: '\n' :: collapse_blank_fuel cs.length rest = _
  have hr := find_run_length h
  rw [collapse_blank_fuel_congr cs.length cs.length rest.length rest (by omega) (by omega)
    (le_refl _)]
  rfl

theorem collapse_blank_nil : collapse_blank [] = [] := rfl

theorem takeWhile_of_all {p : Char → Bool} (l : List Char)
    (h : ∀ x ∈ l, p x = true) : l.takeWhile p = l := by
  induction l with
  | nil => rfl
  | cons c cs ih =>
    rw [List.takeWhile_cons, if_pos (h c (List.mem_cons_self _ _)),
      ih (fun x hx => h x (List.mem_cons_of_mem _ hx))]

theorem collapse_blank_append_no_nl (a m : List Char) (ha : ∀ x ∈ a, x ≠ '\n') :
    collapse_blank (a ++ m) = a ++ collapse_blank m := by
  induction a with
  | nil => rfl
  | cons c a ih =>
    rw [List.cons_append, collapse_blank_cons_ne c _ (ha c (List.mem_cons_self _ _)),
      ih (fun x hx => ha x (List.mem_cons_of_mem _ hx)), List.cons_append]

theorem collapse_blank_mem (l : List Char) :
    ∀ x ∈ collapse_blank l, x ∈ l ∨ x = '\n' := by
  suffices h : ∀ n l, l.length ≤ n → ∀ x ∈ collapse_blank l, x ∈ l ∨ x = '\n' by
    exact h l.length l (le_refl _)
  intro n
  induction n with
  | zero =>
    intro l hn
    have : l = [] := List.length_eq_zero.mp (Nat.le_zero.mp hn)
    subst this
    intro x hx
    exact absurd hx (List.not_mem_nil _)
  | succ n ih =>
    intro l hn x hx
    cases l with
    | nil => exact absurd hx (List.not_mem_nil _)
    | cons c cs =>
      simp only [List.length_cons] at hn
      by_cases hc : c = '\n'
      · subst hc
        rcases hfr : find_run cs with _ | rest
        · rw [collapse_blank_cons_nl_none cs hfr] at hx
          rcases List.mem_cons.mp hx with h1 | h1
          · exact Or.inr h1
          · rcases ih cs (by omega) x h1 with h2 | h2
            · exact Or.inl (List.mem_cons_of_mem _ h2)
            · exact Or.inr h2
        · rw [collapse_blank_cons_nl_some cs rest hfr] at hx
          have hr := find_run_length hfr
          obtain ⟨w1, he, _, _⟩ := find_run_decomp cs rest hfr
          rcases List.mem_cons.mp hx with h1 | h1
          · exact Or.inr h1
          · rcases List.mem_cons.mp h1 with h2 | h2
            · exact Or.inr h2
            · rcases ih rest (by omega) x h2 with h3 | h3
              · refine Or.inl (List.mem_cons_of_mem _ ?_)
                rw [he]
                exact List.mem_append.mpr (Or.inr (List.mem_cons_of_mem _ h3))
              · exact Or.inr h3
      · rw [collapse_blank_cons_ne c cs hc] at hx
        rcases List.mem_cons.mp hx with h1 | h1
        · exact Or.inl (h1 ▸ List.mem_cons_self _ _)
        · rcases ih cs (by omega) x h1 with h2 | h2
          · exact Or.inl (List.mem_cons_of_mem _ h2)
          · exact Or.inr h2

/-- A whitespace prefix with no newline survives collapsing: the leading
whitespace of the collapsed list is the leading whitespace of the input. -/
theorem collapse_blank_takeWhile (cs : List Char)
    (h : ¬ '\n' ∈ cs.takeWhile py_ws) :
    (collapse_blank cs).takeWhile py_ws = cs.takeWhile py_ws := by
  have hsplit : cs = cs.takeWhile py_ws ++ cs.dropWhile py_ws :=
    (List.takeWhile_append_dropWhile py_ws cs).symm
  have hwnl : ∀ x ∈ cs.takeWhile py_ws, x ≠ '\n' := fun x hx he => h (he ▸ hx)
  have hz : (collapse_blank (cs.dropWhile py_ws)).takeWhile py_ws = [] := by
    rcases hd : cs.dropWhile py_ws with _ | ⟨d, m⟩
    · rfl
    · have hdw : py_ws d = false := dropWhile_head_false hd
      have hdne : d ≠ '\n' := fun he => absurd (he ▸ hdw) (by decide)
      rw [collapse_blank_cons_ne d m hdne, List.takeWhile_cons, if_neg (by simp [hdw])]
  conv_lhs => rw [hsplit]
  rw [collapse_blank_append_no_nl _ _ hwnl,
    takeWhile_append_of_all _ _ (fun x hx => List.mem_takeWhile_imp hx), hz, List.append_nil]

theorem collapse_blank_idem (l : List Char) :
    collapse_blank (collapse_blank l) = collapse_blank l := by
  suffices h : ∀ n l, l.length ≤ n → collapse_blank (collapse_blank l) = collapse_blank l by
    exact h l.length l (le_refl _)
  intro n
  induction n with
  | zero =>
    intro l hn
    have : l = [] := List.length_eq_zero.mp (Nat.le_zero.mp hn)
    subst this
    rfl
  | succ n ih =>
    intro l hn
    cases l with
    | nil => rfl
    | cons c cs =>
      simp only [List.length_cons] at hn
      by_cases hc : c = '\n'
      · subst hc
        rcases hfr : find_run cs with _ | rest
        · rw [collapse_blank_cons_nl_none cs hfr]
          have hnl : ¬ '\n' ∈ cs.takeWhile py_ws := (find_run_none_iff cs).mp hfr
          have hfr2 : find_run (collapse_blank cs) = none := by
            rw [find_run_none_iff, collapse_blank_takeWhile cs hnl]
            exact hnl
          rw [collapse_blank_cons_nl_none _ hfr2, ih cs (by omega)]
        · rw [collapse_blank_cons_nl_some cs rest hfr]
          obtain ⟨w1, he, hw1, hnl⟩ := find_run_decomp cs rest hfr
          have hr := find_run_length hfr
          have hfr2 : find_run ('\n' :: collapse_blank rest) = some (collapse_blank rest) := by
            have := find_run_build [] (collapse_blank rest) (by intro x hx; cases hx)
              (by rw [collapse_blank_takeWhile rest hnl]; exact hnl)
            simpa using this
          rw [collapse_blank_cons_nl_some _ _ hfr2, ih rest (by omega)]
      · rw [collapse_blank_cons_ne c cs hc, collapse_blank_cons_ne c _ hc, ih cs (by omega)]

/-- Collapsing commutes with dropping leading whitespace. -/
theorem collapse_blank_dropWhile (l : List Char) :
    collapse_blank (l.dropWhile py_ws) = (collapse_blank l).dropWhile py_ws := by
  suffices h : ∀ n l, l.length ≤ n →
      collapse_blank (l.dropWhile py_ws) = (collapse_blank l).dropWhile py_ws by
    exact h l.length l (le_refl _)
  intro n
  induction n with
  | zero =>
    intro l hn
    have : l = [] := List.length_eq_zero.mp (Nat.le_zero.mp hn)
    subst this
    rfl
  | succ n ih =>
    intro l hn
    cases l with
    | nil => rfl
    | cons c cs =>
      simp only [List.length_cons] at hn
      by_cases hw : py_ws c = true
      · by_cases hc : c = '\n'
        · subst hc
          rcases hfr : find_run cs with _ | rest
          · rw [collapse_blank_cons_nl_none cs hfr, List.dropWhile_cons, if_pos (by decide),
              List.dropWhile_cons, if_pos (by decide)]
            exact ih cs (by omega)
          · rw [collapse_blank_cons_nl_some cs rest hfr, List.dropWhile_cons,
              if_pos (by decide), List.dropWhile_cons, if_pos (by decide),
              List.dropWhile_cons, if_pos (by decide)]
            obtain ⟨w1, he, hw1, hnl⟩ := find_run_decomp cs rest hfr
            have hr := find_run_length hfr
            have hdw : cs.dropWhile py_ws = rest.dropWhile py_ws := by
              rw [he, dropWhile_append_of_all _ _ hw1, List.dropWhile_cons,
                if_pos (by decide)]
            rw [hdw]
            exact ih rest (by omega)
        · rw [collapse_blank_cons_ne c cs hc, List.dropWhile_cons, if_pos hw,
            List.dropWhile_cons, if_pos hw]
          exact ih cs (by omega)
      · have hc : c ≠ '\n' := by
          intro he
          rw [he] at hw
          exact hw (by decide)
        rw [List.dropWhile_cons, if_neg hw, collapse_blank_cons_ne c cs hc,
          List.dropWhile_cons, if_neg hw]

theorem drop_trail_nil_iff (l : List Char) :
    drop_trail l = [] ↔ ∀ x ∈ l, py_ws x = true := by
  induction l with
  | nil => simp [drop_trail]
  | cons c t ih =>
    simp only [drop_trail]
    rcases hdt : drop_trail t with _ | ⟨r0, rr⟩
    · by_cases hw : py_ws c = true
      · rw [if_pos hw]
        constructor
        · intro _ x hx
          rcases List.mem_cons.mp hx with h1 | h1
          · rw [h1]
            exact hw
          · exact ih.mp hdt x h1
        · intro _
          rfl
      · rw [if_neg hw]
        constructor
        · intro hx
          exact List.noConfusion hx
        · intro hall
          exact absurd (hall c (List.mem_cons_self _ _)) hw
    · constructor
      · intro hx
        exact List.noConfusion hx
      · intro hall
        have : drop_trail t = [] := ih.mpr (fun x hx => hall x (List.mem_cons_of_mem _ hx))
        rw [this] at hdt
        exact List.noConfusion hdt

theorem drop_trail_subset (l : List Char) : ∀ x ∈ drop_trail l, x ∈ l := by
  induction l with
  | nil => intro x hx; exact absurd hx (List.not_mem_nil _)
  | cons c t ih =>
    intro x hx
    simp only [drop_trail] at hx
    rcases hdt : drop_trail t with _ | ⟨r0, rr⟩
    · rw [hdt] at hx
      by_cases hw : py_ws c = true
      · rw [if_pos hw] at hx
        exact absurd hx (List.not_mem_nil _)
      · rw [if_neg hw] at hx
        rcases List.mem_cons.mp hx with h1 | h1
        · exact h1 ▸ List.mem_cons_self _ _
        · exact absurd h1 (List.not_mem_nil _)
    · rw [hdt] at hx
      rcases List.mem_cons.mp hx with h1 | h1
      · exact h1 ▸ List.mem_cons_self _ _
      · exact List.mem_cons_of_mem _ (ih x (hdt ▸ h1))

theorem drop_trail_cons (c : Char) (t : List Char) :
    drop_trail (c :: t) =
      (match drop_trail t with
       | [] => if py_ws c then [] else [c]
       | r => c :: r) := rfl

theorem drop_trail_takeWhile (t : List Char) (h : drop_trail t ≠ []) :
    (drop_trail t).takeWhile py_ws = t.takeWhile py_ws := by
  induction t with
  | nil => exact absurd rfl h
  | cons c t ih =>
    rw [drop_trail_cons] at h ⊢
    rcases hdt : drop_trail t with _ | ⟨r0, rr⟩
    · rw [hdt] at h
      replace h : (if py_ws c = true then [] else [c] : List Char) ≠ [] := h
      by_cases hw : py_ws c = true
      · rw [if_pos hw] at h
        exact absurd rfl h
      · show ((if py_ws c = true then [] else [c] : List Char)).takeWhile py_ws = _
        rw [if_neg hw, List.takeWhile_cons, if_neg hw, List.takeWhile_cons, if_neg hw]
    · have ihh := ih (by rw [hdt]; exact fun hx => List.noConfusion hx)
      rw [hdt] at ihh
      show (c :: r0 :: rr).takeWhile py_ws = (c :: t).takeWhile py_ws
      by_cases hw : py_ws c = true
      · rw [show (c :: r0 :: rr).takeWhile py_ws = c :: (r0 :: rr).takeWhile py_ws by
            rw [List.takeWhile_cons, if_pos hw],
          show (c :: t).takeWhile py_ws = c :: t.takeWhile py_ws by
            rw [List.takeWhile_cons, if_pos hw],
          ihh]
      · rw [show (c :: r0 :: rr).takeWhile py_ws = ([] : List Char) by
            rw [List.takeWhile_cons, if_neg hw],
          show (c :: t).takeWhile py_ws = ([] : List Char) by
            rw [List.takeWhile_cons, if_neg hw]]

theorem drop_trail_append (a b : List Char) (hb : drop_trail b ≠ []) :
    drop_trail (a ++ b) = a ++ drop_trail b := by
  induction a with
  | nil => rfl
  | cons c a ih =>
    show drop_trail (c :: (a ++ b)) = c :: (a ++ drop_trail b)
    simp only [drop_trail]
    rw [ih]
    rcases hab : a ++ drop_trail b with _ | ⟨x, xs⟩
    · exact absurd (List.append_eq_nil.mp hab).2 hb
    · rfl

theorem nonws_mem_collapse (l : List Char) :
    ∀ x ∈ l, py_ws x = false → x ∈ collapse_blank l := by
  suffices h : ∀ n l, l.length ≤ n → ∀ x ∈ l, py_ws x = false → x ∈ collapse_blank l by
    exact h l.length l (le_refl _)
  intro n
  induction n with
  | zero =>
    intro l hn
    have : l = [] := List.length_eq_zero.mp (Nat.le_zero.mp hn)
    subst this
    intro x hx
    exact absurd hx (List.not_mem_nil _)
  | succ n ih =>
    intro l hn x hx hxw
    cases l with
    | nil => exact absurd hx (List.not_mem_nil _)
    | cons c cs =>
      simp only [List.length_cons] at hn
      by_cases hc : c = '\n'
      · subst hc
        have hxne : x ≠ '\n' := by
          intro he
          rw [he] at hxw
          exact absurd hxw (by decide)
        have hxcs : x ∈ cs := by
          rcases List.mem_cons.mp hx with h1 | h1
          · exact absurd h1 hxne
          · exact h1
        rcases hfr : find_run cs with _ | rest
        · rw [collapse_blank_cons_nl_none cs hfr]
          exact List.mem_cons_of_mem _ (ih cs (by omega) x hxcs hxw)
        · rw [collapse_blank_cons_nl_some cs rest hfr]
          obtain ⟨w1, he, hw1, _⟩ := find_run_decomp cs rest hfr
          have hr := find_run_length hfr
          have hxrest : x ∈ rest := by
            rw [he] at hxcs
            rcases List.mem_append.mp hxcs with h1 | h1
            · exact absurd (hw1 x h1) (by rw [hxw]; exact fun hh => Bool.noConfusion hh)
            · rcases List.mem_cons.mp h1 with h2 | h2
              · exact absurd h2 hxne
              · exact h2
          exact List.mem_cons_of_mem _ (List.mem_cons_of_mem _
            (ih rest (by omega) x hxrest hxw))
      · rw [collapse_blank_cons_ne c cs hc]
        rcases List.mem_cons.mp hx with h1 | h1
        · exact h1 ▸ List.mem_cons_self _ _
        · exact List.mem_cons_of_mem _ (ih cs (by omega) x h1 hxw)

theorem collapse_all_ws (l : List Char) (h : ∀ x ∈ l, py_ws x = true) :
    ∀ x ∈ collapse_blank l, py_ws x = true := by
  intro x hx
  rcases collapse_blank_mem l x hx with h1 | h1
  · exact h x h1
  · rw [h1]
    decide

theorem drop_trail_idem (l : List Char) : drop_trail (drop_trail l) = drop_trail l := by
  induction l with
  | nil => rfl
  | cons c t ih =>
    rw [drop_trail_cons]
    rcases hdt : drop_trail t with _ | ⟨r0, rr⟩
    · show drop_trail (if py_ws c = true then [] else [c]) =
        (if py_ws c = true then [] else [c] : List Char)
      by_cases hw : py_ws c = true
      · rw [if_pos hw]
        rfl
      · rw [if_neg hw]
        show (if py_ws c = true then [] else [c] : List Char) = [c]
        rw [if_neg hw]
    · show drop_trail (c :: r0 :: rr) = c :: r0 :: rr
      rw [hdt] at ih
      rw [drop_trail_cons, ih]

theorem dropWhile_py_ws_idem (l : List Char) :
    (l.dropWhile py_ws).dropWhile py_ws = l.dropWhile py_ws := by
  induction l with
  | nil => rfl
  | cons c t ih =>
    rw [List.dropWhile_cons]
    by_cases hw : py_ws c = true
    · rw [if_pos hw]
      exact ih
    · rw [if_neg hw, List.dropWhile_cons, if_neg hw]

theorem strip_comm (l : List Char) :
    drop_trail (l.dropWhile py_ws) = (drop_trail l).dropWhile py_ws := by
  induction l with
  | nil => rfl
  | cons c t ih =>
    rw [List.dropWhile_cons, drop_trail_cons]
    rcases hdt : drop_trail t with _ | ⟨r0, rr⟩
    · by_cases hw : py_ws c = true
      · rw [if_pos hw, ih, hdt]
        show List.dropWhile py_ws [] =
          List.dropWhile py_ws (if py_ws c = true then [] else [c])
        rw [if_pos hw]
      · rw [if_neg hw]
        show drop_trail (c :: t) =
          List.dropWhile py_ws (if py_ws c = true then [] else [c])
        rw [if_neg hw, drop_trail_cons, hdt]
        show (if py_ws c = true then [] else [c] : List Char) = List.dropWhile py_ws [c]
        rw [if_neg hw, List.dropWhile_cons, if_neg hw]
    · by_cases hw : py_ws c = true
      · rw [if_pos hw, ih, hdt]
        show List.dropWhile py_ws (r0 :: rr) = List.dropWhile py_ws (c :: r0 :: rr)
        rw [show List.dropWhile py_ws (c :: r0 :: rr) = List.dropWhile py_ws (r0 :: rr) by
          rw [List.dropWhile_cons, if_pos hw]]
      · rw [if_neg hw]
        show drop_trail (c :: t) = List.dropWhile py_ws (c :: r0 :: rr)
        rw [drop_trail_cons, hdt, List.dropWhile_cons]
        show c :: r0 :: rr =
          if py_ws c = true then List.dropWhile py_ws (r0 :: rr) else c :: r0 :: rr
        rw [if_neg hw]

theorem py_strip_idem (l : List Char) : py_strip (py_strip l) = py_strip l := by
  show drop_trail (List.dropWhile py_ws (drop_trail (List.dropWhile py_ws l))) =
    drop_trail (List.dropWhile py_ws l)
  rw [strip_comm (drop_trail (List.dropWhile py_ws l)), drop_trail_idem,
    ← strip_comm (List.dropWhile py_ws l), dropWhile_py_ws_idem]

theorem collapse_blank_ne_nil (l : List Char) (h : l ≠ []) :
    collapse_blank l ≠ [] := by
  cases l with
  | nil => exact absurd rfl h
  | cons c cs =>
    by_cases hc : c = '\n'
    · subst hc
      rcases hfr : find_run cs with _ | rest
      · rw [collapse_blank_cons_nl_none cs hfr]
        exact fun hx => List.noConfusion hx
      · rw [collapse_blank_cons_nl_some cs rest hfr]
        exact fun hx => List.noConfusion hx
    · rw [collapse_blank_cons_ne c cs hc]
      exact fun hx => List.noConfusion hx

theorem drop_trail_cons_of_ne (c : Char) (t : List Char) (h : drop_trail t ≠ []) :
    drop_trail (c :: t) = c :: drop_trail t := by
  rw [drop_trail_cons]
  rcases hx : drop_trail t with _ | ⟨r0, rr⟩
  · exact absurd hx h
  · rfl

/-- Collapsing commutes with dropping trailing whitespace. -/
theorem collapse_blank_drop_trail (l : List Char) :
    collapse_blank (drop_trail l) = drop_trail (collapse_blank l) := by
  suffices h : ∀ n l, l.length ≤ n →
      collapse_blank (drop_trail l) = drop_trail (collapse_blank l) by
    exact h l.length l (le_refl _)
  intro n
  induction n with
  | zero =>
    intro l hn
    have : l = [] := List.length_eq_zero.mp (Nat.le_zero.mp hn)
    subst this
    rfl
  | succ n ih =>
    intro l hn
    cases l with
    | nil => rfl
    | cons c cs =>
      simp only [List.length_cons] at hn
      by_cases hc : c = '\n'
      · subst hc
        rcases hfr : find_run cs with _ | rest
        · rw [collapse_blank_cons_nl_none cs hfr]
          rcases hdt : drop_trail cs with _ | ⟨r0, rr⟩
          · have hall : ∀ x ∈ cs, py_ws x = true := (drop_trail_nil_iff cs).mp hdt
            have h1 : drop_trail ('\n' :: cs) = [] := by
              refine (drop_trail_nil_iff _).mpr ?_
              intro x hx
              rcases List.mem_cons.mp hx with h2 | h2
              · rw [h2]
                decide
              · exact hall x h2
            have h2 : drop_trail ('\n' :: collapse_blank cs) = [] := by
              refine (drop_trail_nil_iff _).mpr ?_
              intro x hx
              rcases List.mem_cons.mp hx with h3 | h3
              · rw [h3]
                decide
              · exact collapse_all_ws cs hall x h3
            rw [h1, h2, collapse_blank_nil]
          · have hne : drop_trail cs ≠ [] := by
              rw [hdt]
              exact fun h2 => List.noConfusion h2
            have hcne : collapse_blank (drop_trail cs) ≠ [] :=
              collapse_blank_ne_nil _ hne
            have hdtcne : drop_trail (collapse_blank cs) ≠ [] := by
              rw [← ih cs (by omega)]
              exact hcne
            have hfr2 : find_run (drop_trail cs) = none := by
              refine (find_run_none_iff _).mpr ?_
              rw [drop_trail_takeWhile cs hne]
              exact (find_run_none_iff cs).mp hfr
            rw [drop_trail_cons_of_ne '\n' cs hne,
              collapse_blank_cons_nl_none (drop_trail cs) hfr2, ih cs (by omega),
              drop_trail_cons_of_ne '\n' (collapse_blank cs) hdtcne]
        · rw [collapse_blank_cons_nl_some cs rest hfr]
          obtain ⟨w1, he, hw1, hnl⟩ := find_run_decomp cs rest hfr
          have hrlen := find_run_length hfr
          rcases hdtr : drop_trail rest with _ | ⟨r0, rr⟩
          · have hallr : ∀ x ∈ rest, py_ws x = true := (drop_trail_nil_iff rest).mp hdtr
            have hallcs : ∀ x ∈ cs, py_ws x = true := by
              intro x hx
              rw [he] at hx
              rcases List.mem_append.mp hx with h2 | h2
              · exact hw1 x h2
              · rcases List.mem_cons.mp h2 with h3 | h3
                · rw [h3]
                  decide
                · exact hallr x h3
            have h1 : drop_trail ('\n' :: cs) = [] := by
              refine (drop_trail_nil_iff _).mpr ?_
              intro x hx
              rcases List.mem_cons.mp hx with h2 | h2
              · rw [h2]
                decide
              · exact hallcs x h2
            have h2 : drop_trail ('\n' :: '\n' :: collapse_blank rest) = [] := by
              refine (drop_trail_nil_iff _).mpr ?_
              intro x hx
              rcases List.mem_cons.mp hx with h3 | h3
              · rw [h3]
                decide
              · rcases List.mem_cons.mp h3 with h4 | h4
                · rw [h4]
                  decide
                · exact collapse_all_ws rest hallr x h4
            rw [h1, h2, collapse_blank_nil]
          · have hner : drop_trail rest ≠ [] := by
              rw [hdtr]
              exact fun h2 => List.noConfusion h2
            have hdtcs : drop_trail cs = w1 ++ '\n' :: drop_trail rest := by
              rw [he, show w1 ++ '\n' :: rest = (w1 ++ ['\n']) ++ rest by simp,
                drop_trail_append _ _ hner]
              simp
            have hnecs : drop_trail cs ≠ [] := by
              rw [hdtcs]
              simp
            have hfrb : find_run (w1 ++ '\n' :: drop_trail rest) = some (drop_trail rest) := by
              refine find_run_build w1 (drop_trail rest) hw1 ?_
              rw [drop_trail_takeWhile rest hner]
              exact hnl
            have hdtcr : drop_trail (collapse_blank rest) ≠ [] := by
              rw [← ih rest (by omega)]
              exact collapse_blank_ne_nil _ hner
            have hinner : drop_trail ('\n' :: collapse_blank rest) ≠ [] := by
              rw [drop_trail_cons_of_ne '\n' _ hdtcr]
              simp
            rw [drop_trail_cons_of_ne '\n' cs hnecs, hdtcs,
              collapse_blank_cons_nl_some _ _ hfrb, ih rest (by omega),
              drop_trail_cons_of_ne '\n' ('\n' :: collapse_blank rest) hinner,
              drop_trail_cons_of_ne '\n' (collapse_blank rest) hdtcr]
      · rw [collapse_blank_cons_ne c cs hc, drop_trail_cons]
        rcases hdt : drop_trail cs with _ | ⟨r0, rr⟩
        · have hall : ∀ x ∈ cs, py_ws x = true := (drop_trail_nil_iff cs).mp hdt
          have hdtc : drop_trail (collapse_blank cs) = [] :=
            (drop_trail_nil_iff _).mpr (collapse_all_ws cs hall)
          show collapse_blank (if py_ws c = true then [] else [c]) =
            drop_trail (c :: collapse_blank cs)
          rw [drop_trail_cons, hdtc]
          show collapse_blank (if py_ws c = true then [] else [c]) =
            (if py_ws c = true then [] else [c])
          by_cases hw : py_ws c = true
          · rw [if_pos hw]
            rfl
          · rw [if_neg hw, collapse_blank_cons_ne c [] hc, collapse_blank_nil]
        · have hne : drop_trail cs ≠ [] := by
            rw [hdt]
            exact fun h2 => List.noConfusion h2
          have hdtcne : drop_trail (collapse_blank cs) ≠ [] := by
            rw [← ih cs (by omega)]
            exact collapse_blank_ne_nil _ hne
          show collapse_blank (c :: (r0 :: rr)) = drop_trail (c :: collapse_blank cs)
          rw [← hdt, collapse_blank_cons_ne c _ hc, ih cs (by omega),
            drop_trail_cons_of_ne c (collapse_blank cs) hdtcne]

theorem marker_free_collapse (l : List Char) (h : marker_free l) :
    marker_free (collapse_blank l) := by
  intro x hx
  rcases collapse_blank_mem l x hx with h1 | h1
  · exact h x h1
  · rw [h1]
    refine ⟨?_, ?_, ?_, ?_, ?_⟩ <;> decide

theorem marker_free_strip (l : List Char) (h : marker_free l) :
    marker_free (py_strip l) := by
  intro x hx
  refine h x ?_
  have h1 : x ∈ l.dropWhile py_ws := drop_trail_subset _ x hx
  exact (List.dropWhile_sublist py_ws).subset h1

/-! ## Claims -/

/-- C2, counterexample: a document consisting of one non-blank block — an
image reference whose basename is absent from the (empty) image mapping —
renders to zero blocks: the block is dropped, not emitted as an ImageBlock
with the literal path, so emission is not one block per non-blank input
block. -/
theorem c2_unmapped_image_counterexample :
    process_markdown_with_images "![s](img.png)".toList [] = [] ∧
    py_strip ("![s](img.png)".toList) ≠ [] ∧
    split_nlnl "![s](img.png)".toList = ["![s](img.png)".toList] := by
  refine ⟨rfl, by decide, rfl⟩

/-- C2 (amended): in a document with no cast-list block, the renderer emits
blocks strictly in source order, each non-blank block yielding at most one
output block: exactly one, except that an image block whose reference fails
to parse or whose basename is absent from the image mapping yields none
(it is dropped, not emitted with the literal path).  The cast-list
relocation (claim C5) is the only reordering. -/
theorem c2_order_and_drops (md : List Char) (dict : ImgDict)
    (hnc : ∀ b ∈ split_nlnl md, cast_marker.isPrefixOf (py_strip b) = false) :
    process_markdown_with_images md dict =
      (split_nlnl md).flatMap (render_block_nocast dict) ∧
    (∀ b, (render_block_nocast dict b).length ≤ 1) ∧
    (∀ p, ("![".toList).isPrefixOf p = true →
      (∀ alt path, img_search p = some (alt, path) →
        dict.lookup (basename path) = none → render_nonspecial dict p = []) ∧
      (img_search p = none → render_nonspecial dict p = [])) := by
  refine ⟨?_, ?_, ?_⟩
  · show pass2 dict (pass1 (split_nlnl md) 0 none none).1
      (pass1 (split_nlnl md) 0 none none).2 0 (split_nlnl md) = _
    rw [pass1_snd_keep (split_nlnl md) 0 none none hnc]
    exact pass2_none_eq dict (split_nlnl md) 0 _
  · intro b
    unfold render_block_nocast
    by_cases hp : py_strip b = []
    · rw [if_pos hp]
      exact Nat.zero_le _
    · rw [if_neg hp]
      rcases ht : title_match (py_strip b) with _ | ti
      · exact render_nonspecial_len dict (py_strip b)
      · rfl
  · intro p hpre
    constructor
    · intro alt path hsearch hlookup
      unfold render_nonspecial
      rw [if_pos hpre, hsearch]
      show (match List.lookup (basename path) dict with
        | some loc => [Block.ImageBlock alt loc]
        | none => []) = []
      rw [hlookup]
    · intro hsearch
      unfold render_nonspecial
      rw [if_pos hpre, hsearch]

/-- C2, witness: a document of a heading, a paragraph and an unmapped image
block renders through the per-block emission function in source order. -/
theorem c2_witness :
    (∀ b ∈ split_nlnl "# T\n\nhello\n\n![x](a.png)".toList,
      cast_marker.isPrefixOf (py_strip b) = false) ∧
    process_markdown_with_images "# T\n\nhello\n\n![x](a.png)".toList [] =
      (split_nlnl "# T\n\nhello\n\n![x](a.png)".toList).flatMap (render_block_nocast []) := by
  refine ⟨by decide, ?_⟩
  exact (c2_order_and_drops "# T\n\nhello\n\n![x](a.png)".toList [] (by decide)).1

/-- C5: for a document with exactly one title block (index `t`) and exactly
one cast-list block (index `c`), the rendered order is the source order with
the cast list relocated to immediately after the heading and its original
slot skipped; all other non-blank blocks render in place. -/
theorem c5_cast_relocation (md : List Char) (dict : ImgDict) (t c : Nat)
    (ht_lt : t < (split_nlnl md).length)
    (ht : (title_match (py_strip ((split_nlnl md).getD t []))).isSome = true)
    (htu : ∀ j, j < (split_nlnl md).length →
      (title_match (py_strip ((split_nlnl md).getD j []))).isSome = true → j = t)
    (hc_lt : c < (split_nlnl md).length)
    (hc : cast_marker.isPrefixOf (py_strip ((split_nlnl md).getD c [])) = true)
    (hcu : ∀ j, j < (split_nlnl md).length →
      cast_marker.isPrefixOf (py_strip ((split_nlnl md).getD j [])) = true → j = c) :
    process_markdown_with_images md dict =
      relocated_order dict t c (py_strip ((split_nlnl md).getD c [])) 0 (split_nlnl md) := by
  show pass2 dict (pass1 (split_nlnl md) 0 none none).1
    (pass1 (split_nlnl md) 0 none none).2 0 (split_nlnl md) = _
  rw [pass1_fst_last (split_nlnl md) 0 none none t ht_lt ht htu,
    pass1_snd_last (split_nlnl md) 0 none none c hc_lt hc hcu]
  simp only [Nat.zero_add]
  apply pass2_relocated
  · intro j hj hjt
    have := htu j hj hjt
    omega
  · intro j hj hjc
    have := hcu j hj hjc
    omega
  · intro j hj hje
    have : j = t := by omega
    rw [this]
    exact ht
  · intro j hj hje
    have : j = c := by omega
    rw [this]
    exact hc

/-- C5, witness: the specification's concrete ordering example — the cast
list renders under the heading, then the paragraphs and the mapped image in
source order. -/
theorem c5_witness :
    (∀ j, j < (split_nlnl
        "# Title\n\n**角色：** \n- A - desc\n\nPara one\n\n![s](img.png)\n\nPara two".toList).length →
      (title_match (py_strip ((split_nlnl
        "# Title\n\n**角色：** \n- A - desc\n\nPara one\n\n![s](img.png)\n\nPara two".toList).getD j
          []))).isSome = true → j = 0) ∧
    (∀ j, j < (split_nlnl
        "# Title\n\n**角色：** \n- A - desc\n\nPara one\n\n![s](img.png)\n\nPara two".toList).length →
      cast_marker.isPrefixOf (py_strip ((split_nlnl
        "# Title\n\n**角色：** \n- A - desc\n\nPara one\n\n![s](img.png)\n\nPara two".toList).getD j
          [])) = true → j = 1) ∧
    process_markdown_with_images
      "# Title\n\n**角色：** \n- A - desc\n\nPara one\n\n![s](img.png)\n\nPara two".toList
      [("img.png".toList, "/imgs/img.png".toList)] =
      [Block.Heading "Title".toList,
       Block.CharacterList "**角色：** \n- A - desc".toList,
       Block.Paragraph "Para one".toList,
       Block.ImageBlock "s".toList "/imgs/img.png".toList,
       Block.Paragraph "Para two".toList] := by
  refine ⟨by decide, by decide, ?_⟩
  rw [c5_cast_relocation
    "# Title\n\n**角色：** \n- A - desc\n\nPara one\n\n![s](img.png)\n\nPara two".toList
    [("img.png".toList, "/imgs/img.png".toList)] 0 1
    (by decide) (by decide) (by decide) (by decide) (by decide) (by decide)]
  decide

/-- C1, counterexample: a task-creation response that parses but carries an
`error_code`, and likewise one that lacks a `task_id`, make
`generate_speech_baidu` return overall failure at once — no short-text chunk
is ever submitted (`chunkTexts = []`), contradicting the claim that such a
response still leads to an attempt at chunked short-text synthesis. -/
theorem c1_creation_error_counterexample :
    generate_speech_baidu
      ⟨some ['t'], CreateResp.parsed true none, [], none, fun _ => ⟨true, [1]⟩⟩
      "hi".toList = ⟨false, none, []⟩ ∧
    generate_speech_baidu
      ⟨some ['t'], CreateResp.parsed false none, [], none, fun _ => ⟨true, [1]⟩⟩
      "hi".toList = ⟨false, none, []⟩ := by
  constructor <;> rfl

/-- C1 (amended): a parsed creation response carrying an `error_code`, or
lacking a `task_id`, aborts `generate_speech_baidu` with overall failure and
no short-text attempt; only an unparseable creation response skips the
long-text path and proceeds to chunked short-text synthesis of the
(truncated) text. -/
theorem c1_amended (env : BaiduEnv) (text : List Char) (htok : env.token.isSome) :
    (∀ hasErr tid, env.createResp = CreateResp.parsed hasErr tid →
      hasErr = true ∨ tid = none →
      generate_speech_baidu env text = ⟨false, none, []⟩) ∧
    (env.createResp = CreateResp.parseFail →
      generate_speech_baidu env text = short_text_phase env.chunk (truncate_text text) ∧
      (generate_speech_baidu env text).chunkTexts = chunk_parts (truncate_text text)) := by
  obtain ⟨t, ht⟩ := Option.isSome_iff_exists.mp htok
  constructor
  · intro hasErr tid hcr hor
    rcases hor with h | h
    · subst h
      simp [generate_speech_baidu, ht, hcr]
    · subst h
      cases hasErr <;> simp [generate_speech_baidu, ht, hcr]
  · intro hcr
    have he : generate_speech_baidu env text =
        short_text_phase env.chunk (truncate_text text) := by
      simp [generate_speech_baidu, ht, hcr]
    refine ⟨he, ?_⟩
    rw [he]
    by_cases hb : (((List.range (chunk_parts (truncate_text text)).length).map
        (fun i => if (env.chunk i).isAudio then (env.chunk i).payload else [])).flatten) = [] <;>
      simp [short_text_phase, hb]

/-- C1, witness: the amended statement at concrete inputs — an error-code
response yields immediate failure with no chunks, and a parse failure yields
the chunked fallback on the whole text. -/
theorem c1_witness :
    generate_speech_baidu
      ⟨some ['t'], CreateResp.parsed true (some ['i']), [], none, fun _ => ⟨true, [1]⟩⟩
      "hi".toList = ⟨false, none, []⟩ ∧
    (generate_speech_baidu
      ⟨some ['t'], CreateResp.parseFail, [], none, fun _ => ⟨true, [1]⟩⟩
      "hi".toList).chunkTexts = chunk_parts (truncate_text "hi".toList) := by
  refine ⟨?_, ?_⟩
  · exact (c1_amended
      ⟨some ['t'], CreateResp.parsed true (some ['i']), [], none, fun _ => ⟨true, [1]⟩⟩
      "hi".toList (by decide)).1 true (some ['i']) rfl (Or.inl rfl)
  · exact ((c1_amended
      ⟨some ['t'], CreateResp.parseFail, [], none, fun _ => ⟨true, [1]⟩⟩
      "hi".toList (by decide)).2 rfl).2

/-- C6: the short-text fallback submits every chunk (in order) regardless of
individual failures, concatenates exactly the payloads of the audio-typed
responses in chunk order, succeeds precisely when that buffer is nonempty —
equivalently, when some submitted chunk returned nonempty audio — and writes
the buffer exactly on success. -/
theorem c6_chunk_partial_success (chunk : Nat → ChunkResp) (text : List Char) :
    (short_text_phase chunk text).chunkTexts = chunk_parts text ∧
    (short_text_phase chunk text).written =
      (if ((List.range (chunk_parts text).length).map
          (fun i => if (chunk i).isAudio then (chunk i).payload else [])).flatten = []
       then none
       else some ((List.range (chunk_parts text).length).map
          (fun i => if (chunk i).isAudio then (chunk i).payload else [])).flatten) ∧
    ((short_text_phase chunk text).success = true ↔
      ∃ i, i < (chunk_parts text).length ∧ (chunk i).isAudio = true ∧ (chunk i).payload ≠ []) := by
  refine ⟨?_, ?_, ?_⟩
  · by_cases hb : (((List.range (chunk_parts text).length).map
        (fun i => if (chunk i).isAudio then (chunk i).payload else [])).flatten) = [] <;>
      simp [short_text_phase, hb]
  · by_cases hb : (((List.range (chunk_parts text).length).map
        (fun i => if (chunk i).isAudio then (chunk i).payload else [])).flatten) = [] <;>
      simp [short_text_phase, hb]
  · rw [show (short_text_phase chunk text).success =
        !decide ((((List.range (chunk_parts text).length).map
          (fun i => if (chunk i).isAudio then (chunk i).payload else [])).flatten) = []) from ?_]
    · simp only [Bool.not_eq_true', decide_eq_false_iff_not]
      constructor
      · intro h
        rw [List.flatten_eq_nil_iff] at h
        push_neg at h
        obtain ⟨l, hl, hlne⟩ := h
        obtain ⟨i, hi, hini⟩ := List.mem_map.mp hl
        by_cases ha : (chunk i).isAudio
        · refine ⟨i, List.mem_range.mp hi, ha, ?_⟩
          rw [← hini] at hlne
          simpa [ha] using hlne
        · exfalso
          apply hlne
          rw [← hini]
          simp [ha]
      · rintro ⟨i, hi, ha, hp⟩
        rw [List.flatten_eq_nil_iff]
        intro hall
        apply hp
        have hmem : (if (chunk i).isAudio then (chunk i).payload else []) ∈
            (List.range (chunk_parts text).length).map
              (fun i => if (chunk i).isAudio then (chunk i).payload else []) :=
          List.mem_map.mpr ⟨i, List.mem_range.mpr hi, rfl⟩
        have hz := hall _ hmem
        rw [ha] at hz
        simpa using hz
    · by_cases hb : (((List.range (chunk_parts text).length).map
          (fun i => if (chunk i).isAudio then (chunk i).payload else [])).flatten) = [] <;>
        simp [short_text_phase, hb]

/-- C8: text is truncated to its first 10000 characters exactly when longer
than 10000; the fallback chunks are consecutive 500-character slices of the
truncated text whose concatenation restores it, with only the final chunk
shorter; a truncated length of 1200 gives chunk lengths 500, 500, 200; and
these chunks are exactly what the pipeline submits once the fallback is
reached. -/
theorem c8_truncation_chunking (text : List Char) :
    (text.length ≤ 10000 → truncate_text text = text) ∧
    (10000 < text.length → truncate_text text = text.take 10000) ∧
    (chunk_parts (truncate_text text)).flatten = truncate_text text ∧
    (∀ c ∈ (chunk_parts (truncate_text text)).dropLast, c.length = 500) ∧
    (∀ c ∈ chunk_parts (truncate_text text), c ≠ [] ∧ c.length ≤ 500) ∧
    ((truncate_text text).length = 1200 →
      (chunk_parts (truncate_text text)).map List.length = [500, 500, 200]) ∧
    (∀ env : BaiduEnv, env.token.isSome → env.createResp = CreateResp.parseFail →
      (generate_speech_baidu env text).chunkTexts = chunk_parts (truncate_text text)) := by
  refine ⟨?_, ?_, chunk_parts_flatten _, chunk_parts_dropLast _,
    chunk_parts_mem_length _, chunk_parts_1200 _, ?_⟩
  · intro h
    simp [truncate_text, Nat.not_lt.mpr h]
  · intro h
    simp [truncate_text, h]
  · intro env htok hcr
    exact ((c1_amended env text htok).2 hcr).2

/-- C8, witness: a 1200-character text is left untouched by truncation and
splits into chunks of lengths 500, 500, 200, which the fallback submits. -/
theorem c8_witness :
    truncate_text (List.replicate 1200 'a') = List.replicate 1200 'a' ∧
    (chunk_parts (truncate_text (List.replicate 1200 'a'))).map List.length = [500, 500, 200] ∧
    (generate_speech_baidu
      ⟨some ['t'], CreateResp.parseFail, [], none, fun _ => ⟨false, []⟩⟩
      (List.replicate 1200 'a')).chunkTexts =
      chunk_parts (truncate_text (List.replicate 1200 'a')) := by
  have h := c8_truncation_chunking (List.replicate 1200 'a')
  have hlen : (List.replicate 1200 'a').length ≤ 10000 := by
    rw [List.length_replicate]
    omega
  refine ⟨h.1 hlen, ?_, ?_⟩
  · apply h.2.2.2.2.2.1
    rw [h.1 hlen, List.length_replicate]
  · exact h.2.2.2.2.2.2 _ rfl rfl

/-- C3, counterexample: a poll iteration whose current listing has a file
outside the `before` snapshot (nonempty set difference) but no greater file
count — one file gone, one new non-theme file — does not stop polling: the
iteration yields nothing, because the code guards the new-file branch by
`len(current_files) > len(story_files_before)`, not by the set difference. -/
theorem c3_poll_counterexample :
    poll_iter [⟨"a.md".toList, 0, []⟩] "T".toList 0 [⟨"b.md".toList, 5, []⟩] = none ∧
    ([⟨"b.md".toList, 5, []⟩] : List SFile).filter
      (fun f => ¬ f.name ∈ ([⟨"a.md".toList, 0, []⟩] : List SFile).map (fun g => g.name)) ≠ [] := by
  constructor
  · rfl
  · decide

/-- C3 (amended): the new-file branch of a poll iteration fires exactly when
the current file count strictly exceeds the snapshot count; it then stops
polling at once and selects a file outside the snapshot of maximal
modification time.  When no file ever disappears (the snapshot names all
persist and listings repeat no name), the count test coincides with the
claimed set-difference test. -/
theorem c3_amended (before current : List SFile) (theme : List Char) (st : Nat)
    (hnd : (current.map (fun f => f.name)).Nodup) :
    (before.length < current.length →
      (poll_iter before theme st current).isSome ∧
      ∀ f, poll_iter before theme st current = some f →
        f ∈ current ∧ ¬ f.name ∈ before.map (fun g => g.name) ∧
        ∀ g ∈ current, ¬ g.name ∈ before.map (fun h => h.name) → g.mtime ≤ f.mtime) ∧
    ((before.map (fun f => f.name)).Nodup →
      (∀ n ∈ before.map (fun f => f.name), n ∈ current.map (fun f => f.name)) →
      (before.length < current.length ↔
        current.filter (fun f => ¬ f.name ∈ before.map (fun g => g.name)) ≠ [])) := by
  have hdiff_ne : before.length < current.length →
      current.filter (fun f => ¬ f.name ∈ before.map (fun g => g.name)) ≠ [] := by
    intro hlen he
    have hsub : current.map (fun f => f.name) ⊆ before.map (fun g => g.name) := by
      intro n hn
      obtain ⟨f, hf, hfn⟩ := List.mem_map.mp hn
      have := List.filter_eq_nil_iff.mp he f hf
      simp only [decide_not, Bool.not_eq_true', decide_eq_false_iff_not, Decidable.not_not] at this
      rw [← hfn]
      exact this
    have hle : current.length ≤ before.length := by
      have hsp := List.subperm_of_subset hnd hsub
      have := hsp.length_le
      simpa using this
    omega
  constructor
  · intro hlen
    rcases hmax : py_max_mtime (current.filter
        (fun f => ¬ f.name ∈ before.map (fun g => g.name))) with _ | f
    · exact absurd ((py_max_mtime_none_iff _).mp hmax) (hdiff_ne hlen)
    · have he : poll_iter before theme st current = some f := by
        simp only [poll_iter, if_pos hlen, hmax]
        rfl
      refine ⟨by rw [he]; rfl, ?_⟩
      intro f' hf'
      rw [he] at hf'
      cases hf'
      have hmem := py_max_mtime_mem hmax
      rw [List.mem_filter] at hmem
      refine ⟨hmem.1, by simpa using hmem.2, ?_⟩
      intro g hg hgn
      exact py_max_mtime_is_max hmax g
        (List.mem_filter.mpr ⟨hg, by simpa using hgn⟩)
  · intro hndb hsubn
    constructor
    · exact hdiff_ne
    · intro hne
      rcases List.exists_mem_of_ne_nil _ hne with ⟨f, hf⟩
      rw [List.mem_filter] at hf
      have hfn : ¬ f.name ∈ before.map (fun g => g.name) := by
        simpa using hf.2
      have hsp := List.subperm_of_subset hndb hsubn
      have hle : before.length ≤ current.length := by
        simpa using hsp.length_le
      rcases Nat.lt_or_ge before.length current.length with h | h
      · exact h
      · exfalso
        have hperm := hsp.perm_of_length_le (by simpa using h)
        apply hfn
        exact hperm.symm.subset (List.mem_map.mpr ⟨f, hf.1, rfl⟩)

/-- C3, witness: the amended statement at a concrete iteration — two files
beyond a one-file snapshot stop the poll at once. -/
theorem c3_witness :
    (([⟨"b.md".toList, 5, []⟩, ⟨"c.md".toList, 9, []⟩] : List SFile).map
      (fun f => f.name)).Nodup ∧
    (poll_iter [⟨"a.md".toList, 0, []⟩] "T".toList 0
      [⟨"b.md".toList, 5, []⟩, ⟨"c.md".toList, 9, []⟩]).isSome := by
  refine ⟨by decide, ?_⟩
  exact ((c3_amended [⟨"a.md".toList, 0, []⟩]
    [⟨"b.md".toList, 5, []⟩, ⟨"c.md".toList, 9, []⟩] "T".toList 0 (by decide)).1
    (by decide)).1

/-- C4: when the bounded poll loop ends without a match, the wait phase
performs its single final scan of the directory: with no theme-substring
match at all the request fails with the 504 timeout response, and otherwise
the most recently modified theme-matching file is used regardless of
recency.  The wait is a total function of the (finitely many) observations,
so every execution terminates. -/
theorem c4_timeout_last_scan (before : List SFile) (theme : List Char) (st : Nat)
    (snapshots : List (List SFile)) (finalFiles : List SFile)
    (h : poll_loop before theme st (snapshots.take max_wait_iters) = none) :
    (finalFiles.filter (fun f => glob_theme_md theme f.name) = [] →
      generate_story_wait before theme st snapshots finalFiles = WaitOutcome.timeout504) ∧
    (∀ f, py_max_mtime (finalFiles.filter (fun f => glob_theme_md theme f.name)) = some f →
      generate_story_wait before theme st snapshots finalFiles = WaitOutcome.staleFound f ∧
      f ∈ finalFiles ∧ glob_theme_md theme f.name = true ∧
      ∀ g ∈ finalFiles, glob_theme_md theme g.name = true → g.mtime ≤ f.mtime) ∧
    (finalFiles.filter (fun f => glob_theme_md theme f.name) ≠ [] →
      generate_story_wait before theme st snapshots finalFiles ≠ WaitOutcome.timeout504) := by
  refine ⟨?_, ?_, ?_⟩
  · intro hnil
    simp only [generate_story_wait, h, hnil, py_max_mtime]
  · intro f hmax
    have hmem := py_max_mtime_mem hmax
    rw [List.mem_filter] at hmem
    refine ⟨?_, hmem.1, hmem.2, ?_⟩
    · simp only [generate_story_wait, h, hmax]
    · intro g hg hgt
      exact py_max_mtime_is_max hmax g (List.mem_filter.mpr ⟨hg, hgt⟩)
  · intro hne
    rcases hmax : py_max_mtime (finalFiles.filter
        (fun f => glob_theme_md theme f.name)) with _ | f
    · exact absurd ((py_max_mtime_none_iff _).mp hmax) hne
    · simp only [generate_story_wait, h, hmax]
      intro hc
      cases hc

/-- C4, witness: with no snapshots yielding a file and an empty final
directory, the wait ends in the 504 timeout response. -/
theorem c4_witness :
    poll_loop [] "T".toList 0 (([] : List (List SFile)).take max_wait_iters) = none ∧
    generate_story_wait [] "T".toList 0 [] [] = WaitOutcome.timeout504 := by
  refine ⟨rfl, ?_⟩
  exact (c4_timeout_last_scan [] "T".toList 0 [] [] rfl).1 rfl

/-- C9, counterexample: a story directory holding a theme-matching markdown
file whose content is blank does not produce a cached response — the code
falls through to fresh generation, contradicting the claim that the mere
existence of a matching file suffices. -/
theorem c9_blank_cache_counterexample :
    glob_theme_md "T".toList "xTx.md".toList = true ∧
    generate_story_entry [⟨"xTx.md".toList, 5, "   ".toList⟩] "T".toList =
      StoryStep.launchGeneration := by
  constructor
  · decide
  · rfl

/-- C9 (amended): when the story directory holds a theme-matching markdown
file and the most recently modified such file has non-blank content,
`generate_story` returns exactly that file as a cache hit (`is_cached`
true in the response) without launching the external generation process;
a blank (or unreadable) latest match instead falls through to generation. -/
theorem c9_amended (files : List SFile) (theme : List Char) (latest : SFile)
    (hmax : py_max_mtime (files.filter (fun f => glob_theme_md theme f.name)) = some latest)
    (hcontent : py_strip latest.content ≠ []) :
    generate_story_entry files theme = StoryStep.cachedHit latest ∧
    latest ∈ files ∧ glob_theme_md theme latest.name = true ∧
    ∀ g ∈ files, glob_theme_md theme g.name = true → g.mtime ≤ latest.mtime := by
  have hmem := py_max_mtime_mem hmax
  rw [List.mem_filter] at hmem
  refine ⟨?_, hmem.1, hmem.2, ?_⟩
  · simp only [generate_story_entry, hmax]
    rw [if_neg hcontent]
  · intro g hg hgt
    exact py_max_mtime_is_max hmax g (List.mem_filter.mpr ⟨hg, hgt⟩)

/-- C9, witness: a directory with two theme-matching files returns the more
recently modified one as a cache hit. -/
theorem c9_witness :
    py_max_mtime (([⟨"xTx.md".toList, 5, "story".toList⟩, ⟨"yT.md".toList, 2, "old".toList⟩] :
      List SFile).filter (fun f => glob_theme_md "T".toList f.name)) =
      some ⟨"xTx.md".toList, 5, "story".toList⟩ ∧
    py_strip ("story".toList) ≠ [] ∧
    generate_story_entry [⟨"xTx.md".toList, 5, "story".toList⟩, ⟨"yT.md".toList, 2, "old".toList⟩]
      "T".toList = StoryStep.cachedHit ⟨"xTx.md".toList, 5, "story".toList⟩ := by
  refine ⟨by decide, by decide, ?_⟩
  exact (c9_amended _ _ _ (by decide) (by decide)).1

/-- C10: when synthesis of the (image-stripped) caller text fails, the
endpoint does not fail yet: with no story file at all it returns a 500, and
otherwise it retries exactly once with the extracted plain text of the most
recently modified story markdown file — the recorded synthesis trace is
exactly those two texts — returning the audio URL if the retry succeeds and
a 500 only if it also fails. -/
theorem c10_retry_with_latest_story (text : List Char) (netOk : Bool)
    (synth : List Char → Bool) (files : List SFile)
    (htext : text ≠ []) (hnet : netOk = true) :
    (synth (sub_image text) = true →
      generate_audio text netOk synth files = (AudioOutcome.ok, [sub_image text])) ∧
    (synth (sub_image text) = false →
      (files.filter (fun f => glob_md f.name) = [] →
        generate_audio text netOk synth files = (AudioOutcome.err500_noStory, [sub_image text])) ∧
      (∀ latest, py_max_mtime (files.filter (fun f => glob_md f.name)) = some latest →
        generate_audio text netOk synth files =
          ((if synth (extract_plain_text latest.content) then AudioOutcome.ok
            else AudioOutcome.err500_synthFailed),
            [sub_image text, extract_plain_text latest.content]) ∧
        latest ∈ files ∧
        ∀ g ∈ files, glob_md g.name = true → g.mtime ≤ latest.mtime)) := by
  subst hnet
  constructor
  · intro hs
    simp only [generate_audio, if_neg htext, Bool.not_true, Bool.false_eq_true,
      if_false, hs, if_true]
  · intro hs
    constructor
    · intro hnil
      simp only [generate_audio, if_neg htext, Bool.not_true, Bool.false_eq_true,
        if_false, hs, hnil, py_max_mtime]
    · intro latest hmax
      have hmem := py_max_mtime_mem hmax
      rw [List.mem_filter] at hmem
      refine ⟨?_, hmem.1, ?_⟩
      · simp only [generate_audio, if_neg htext, Bool.not_true, Bool.false_eq_true,
          if_false, hs, hmax]
        split <;> rfl
      · intro g hg hgt
        exact py_max_mtime_is_max hmax g (List.mem_filter.mpr ⟨hg, hgt⟩)

/-- C10, witness: a first failure followed by a successful retry on the
plain text of the latest story file returns the audio URL, with both
submitted texts recorded. -/
theorem c10_witness :
    generate_audio "hi".toList true (fun l => l = "story".toList)
      [⟨"s.md".toList, 3, "story".toList⟩] =
      (AudioOutcome.ok, ["hi".toList, "story".toList]) := by
  have h := ((c10_retry_with_latest_story "hi".toList true
    (fun l => l = "story".toList) [⟨"s.md".toList, 3, "story".toList⟩]
    (by decide) rfl).2 (by decide)).2 ⟨"s.md".toList, 3, "story".toList⟩ (by decide)
  rw [h.1]
  decide

/-- C7, counterexample: `extract_plain_text` is not idempotent.  On the
input `"-- --"` the `replace('- ', '')` pass manufactures the horizontal
rule `"---"`, which a second application's `^-+$` pass erases entirely, so
the two results differ. -/
theorem c7_extract_counterexample :
    extract_plain_text ['-', '-', ' ', '-', '-'] = ['-', '-', '-'] ∧
    extract_plain_text (extract_plain_text ['-', '-', ' ', '-', '-']) = [] ∧
    extract_plain_text (extract_plain_text ['-', '-', ' ', '-', '-']) ≠
      extract_plain_text ['-', '-', ' ', '-', '-'] := by
  refine ⟨by decide, by decide, by decide⟩

/-- C7 (amended): on marker-free text — text containing none of the marker
characters the substitutions rewrite — every substitution pass is the
identity, and the remaining blank-line collapsing followed by `strip` is
idempotent, so `extract_plain_text` applied twice agrees with one
application. -/
theorem c7_amended (l : List Char) (h : marker_free l) :
    extract_plain_text (extract_plain_text l) = extract_plain_text l := by
  have h1 : extract_plain_text l = py_strip (collapse_blank l) :=
    extract_eq_strip_collapse l h
  have hmf2 : marker_free (py_strip (collapse_blank l)) :=
    marker_free_strip _ (marker_free_collapse _ h)
  rw [h1, extract_eq_strip_collapse _ hmf2]
  have hcoll : collapse_blank (py_strip (collapse_blank l)) =
      py_strip (collapse_blank l) := by
    show collapse_blank (drop_trail (List.dropWhile py_ws (collapse_blank l))) = _
    rw [collapse_blank_drop_trail, collapse_blank_dropWhile, collapse_blank_idem]
    rfl
  rw [hcoll, py_strip_idem]

/-- C7, witness: the amended statement at a concrete marker-free input
holding a blank region between newlines. -/
theorem c7_witness :
    marker_free ['H', 'i', '\n', ' ', '\n', '\n', 'y', 'o', 'u'] ∧
    extract_plain_text
        (extract_plain_text ['H', 'i', '\n', ' ', '\n', '\n', 'y', 'o', 'u']) =
      extract_plain_text ['H', 'i', '\n', ' ', '\n', '\n', 'y', 'o', 'u'] :=
  ⟨by unfold marker_free; decide,
    c7_amended ['H', 'i', '\n', ' ', '\n', '\n', 'y', 'o', 'u']
      (by unfold marker_free; decide)⟩

end Server
